import Mathlib

/-!
Verification of the `periodic-osmium` Redis caching middleware.

The development shallowly embeds the TypeScript sources:
* `src/core/cache.ts` (`CacheService`): namespacing, compression, tag
  bookkeeping, pattern deletion, get-or-populate;
* `src/adapters/express.ts` (`cacheMiddleware`): default cache-key
  derivation and the auto-cache GET flow.

The Redis store is modelled as an association list from keys to values
(strings or sets) with a stored expiry, plus a `down` flag making every
command fail (to study the error paths).  Platform primitives used by the
code (`JSON.stringify`/`JSON.parse`, `Buffer` base64 and UTF-8 codecs) are
modelled executably below and proved to round-trip.
-/

namespace Osmium

/-! ### Base64 codec (models `Buffer.toString('base64')` / `Buffer.from(_, 'base64')`) -/

def b64Alphabet : List Char :=
  "ABCDEFGHIJKLMNOPQRSTUVWXYZabcdefghijklmnopqrstuvwxyz0123456789+/".toList

/-- Sextet value to base64 character. -/
def b64c (n : Nat) : Char := b64Alphabet.getD n 'A'

/-- Base64 character back to its sextet value. -/
def b64v (c : Char) : Option Nat := b64Alphabet.indexOf? c

/-- Encode a byte list (each `< 256`) into base64 characters, with padding. -/
def b64encode : List Nat → List Char
  | [] => []
  | [a] => [b64c (a / 4), b64c (a % 4 * 16), '=', '=']
  | [a, b] => [b64c (a / 4), b64c (a % 4 * 16 + b / 16), b64c (b % 16 * 4), '=']
  | a :: b :: c :: rest =>
      b64c (a / 4) :: b64c (a % 4 * 16 + b / 16) :: b64c (b % 16 * 4 + c / 64) ::
        b64c (c % 64) :: b64encode rest

/-- Decode a final (padded) base64 quantum. -/
def b64decodeTail (w x y z : Char) : Option (List Nat) := do
  let a ← b64v w
  let b ← b64v x
  if y == '=' then
    some [a * 4 + b / 16]
  else do
    let c ← b64v y
    if z == '=' then
      some [a * 4 + b / 16, b % 16 * 16 + c / 4]
    else do
      let d ← b64v z
      some [a * 4 + b / 16, b % 16 * 16 + c / 4, c % 4 * 64 + d]

/-- Decode base64 characters back to bytes. -/
def b64decode : List Char → Option (List Nat)
  | [] => some []
  | w :: x :: y :: z :: rest =>
      if rest.isEmpty then b64decodeTail w x y z
      else do
        let a ← b64v w
        let b ← b64v x
        let c ← b64v y
        let d ← b64v z
        let tail ← b64decode rest
        some ((a * 4 + b / 16) :: (b % 16 * 16 + c / 4) :: (c % 4 * 64 + d) :: tail)
  | _ => none

theorem b64v_b64c : ∀ n < 64, b64v (b64c n) = some n := by decide

theorem b64c_ne_pad : ∀ n < 64, (b64c n == '=') = false := by decide

theorem b64encode_nil_iff (bs : List Nat) : b64encode bs = [] ↔ bs = [] := by
  constructor
  · intro h
    match bs with
    | [] => rfl
    | [a] => simp [b64encode] at h
    | [a, b] => simp [b64encode] at h
    | a :: b :: c :: rest => simp [b64encode] at h
  · rintro rfl; rfl

/-- Base64 round-trip on byte lists. -/
theorem b64decode_b64encode (bs : List Nat) (h : ∀ b ∈ bs, b < 256) :
    b64decode (b64encode bs) = some bs := by
  induction bs using b64encode.induct with
  | case1 => rfl
  | case2 a =>
      have ha : a < 256 := h a (by simp)
      have h1 : a / 4 < 64 := by omega
      have h2 : a % 4 * 16 < 64 := by omega
      simp only [b64encode, b64decode, List.isEmpty, b64decodeTail,
        b64v_b64c _ h1, b64v_b64c _ h2]
      simp only [Option.bind_eq_bind, Option.some_bind]
      simp
      omega
  | case3 a b =>
      have ha : a < 256 := h a (by simp)
      have hb : b < 256 := h b (by simp)
      have h1 : a / 4 < 64 := by omega
      have h2 : a % 4 * 16 + b / 16 < 64 := by omega
      have h3 : b % 16 * 4 < 64 := by omega
      simp only [b64encode, b64decode, List.isEmpty, b64decodeTail,
        b64v_b64c _ h1, b64v_b64c _ h2, b64v_b64c _ h3, b64c_ne_pad _ h3]
      simp only [Option.bind_eq_bind, Option.some_bind, Bool.false_eq_true,
        if_false]
      simp
      omega
  | case4 a b c rest ih =>
      have ha : a < 256 := h a (by simp)
      have hb : b < 256 := h b (by simp)
      have hc : c < 256 := h c (by simp)
      have hrest : ∀ x ∈ rest, x < 256 := fun x hx => h x (by simp [hx])
      have ihr := ih hrest
      have h1 : a / 4 < 64 := by omega
      have h2 : a % 4 * 16 + b / 16 < 64 := by omega
      have h3 : b % 16 * 4 + c / 64 < 64 := by omega
      have h4 : c % 64 < 64 := by omega
      have e1 : a / 4 * 4 + (a % 4 * 16 + b / 16) / 16 = a := by omega
      have e2 : (a % 4 * 16 + b / 16) % 16 * 16 + (b % 16 * 4 + c / 64) / 4 = b := by
        omega
      have e3 : (b % 16 * 4 + c / 64) % 4 * 64 + c % 64 = c := by omega
      by_cases hr : rest = []
      · subst hr
        simp only [b64encode, b64decode, List.isEmpty, b64decodeTail,
          b64v_b64c _ h1, b64v_b64c _ h2, b64v_b64c _ h3, b64v_b64c _ h4,
          b64c_ne_pad _ h3, b64c_ne_pad _ h4]
        simp
        omega
      · have hne : b64encode rest ≠ [] := by
          intro hcon
          exact hr ((b64encode_nil_iff rest).mp hcon)
        simp only [b64encode, b64decode]
        rw [if_neg (by simpa [List.isEmpty_iff] using hne)]
        simp only [b64v_b64c _ h1, b64v_b64c _ h2, b64v_b64c _ h3, b64v_b64c _ h4,
          Option.bind_eq_bind, Option.some_bind, ihr]
        simp
        omega

/-! ### UTF-8 codec (models `Buffer.from(string)` / `buffer.toString('utf-8')`) -/

/-- UTF-8 bytes of one character. -/
def utf8Bytes (c : Char) : List Nat :=
  let n := c.toNat
  if n < 0x80 then [n]
  else if n < 0x800 then [0xC0 + n / 64, 0x80 + n % 64]
  else if n < 0x10000 then [0xE0 + n / 4096, 0x80 + n / 64 % 64, 0x80 + n % 64]
  else [0xF0 + n / 0x40000, 0x80 + n / 4096 % 64, 0x80 + n / 64 % 64, 0x80 + n % 64]

/-- UTF-8 bytes of a character list. -/
def utf8Encode (s : List Char) : List Nat := s.flatMap utf8Bytes

/-- Rebuild a character from a decoded code point, rejecting invalid ones. -/
def mkChar (n : Nat) : Option Char :=
  if n.isValidChar then some (Char.ofNat n) else none

/-- The valid code points, as plain arithmetic. -/
theorem isValidChar_toNat (c : Char) :
    c.toNat < 0xD800 ∨ (0xDFFF < c.toNat ∧ c.toNat < 0x110000) := by
  rcases c.valid with h | h
  · exact Or.inl h
  · exact Or.inr h

theorem utf8Bytes_lt_256 (c : Char) : ∀ b ∈ utf8Bytes c, b < 256 := by
  have hlt : c.toNat < 0x110000 := by
    rcases isValidChar_toNat c with h | h <;> omega
  intro b hb
  simp only [utf8Bytes] at hb
  split at hb
  · simp at hb; omega
  · split at hb
    · simp at hb; omega
    · split at hb
      · simp at hb; omega
      · simp at hb; omega

theorem mkChar_toNat (c : Char) : mkChar c.toNat = some c := by
  have : Nat.isValidChar c.toNat := by
    rcases isValidChar_toNat c with h | h
    · exact Or.inl h
    · exact Or.inr ⟨by omega, h.2⟩
  simp [mkChar, this, Char.ofNat_toNat]

/-- Is `b` a UTF-8 continuation byte? -/
def isCont (b : Nat) : Bool := 0x80 ≤ b && b < 0xC0

/-- Decode one UTF-8 character from the head of a byte list, returning the
character and the remaining bytes (rejecting malformed input). -/
def utf8DecodeChar : List Nat → Option (Char × List Nat)
  | [] => none
  | b :: rest =>
    if b < 0x80 then (mkChar b).map fun c => (c, rest)
    else if b < 0xC0 then none
    else if b < 0xE0 then
      match rest with
      | b2 :: r =>
        if isCont b2 then
          if 0x80 ≤ (b - 0xC0) * 64 + (b2 - 0x80) then
            (mkChar ((b - 0xC0) * 64 + (b2 - 0x80))).map fun c => (c, r)
          else none
        else none
      | [] => none
    else if b < 0xF0 then
      match rest with
      | b2 :: b3 :: r =>
        if isCont b2 && isCont b3 then
          if 0x800 ≤ (b - 0xE0) * 4096 + (b2 - 0x80) * 64 + (b3 - 0x80) then
            (mkChar ((b - 0xE0) * 4096 + (b2 - 0x80) * 64 + (b3 - 0x80))).map
              fun c => (c, r)
          else none
        else none
      | _ => none
    else if b < 0xF8 then
      match rest with
      | b2 :: b3 :: b4 :: r =>
        if isCont b2 && isCont b3 && isCont b4 then
          if 0x10000 ≤ (b - 0xF0) * 0x40000 + (b2 - 0x80) * 4096 +
              (b3 - 0x80) * 64 + (b4 - 0x80) then
            (mkChar ((b - 0xF0) * 0x40000 + (b2 - 0x80) * 4096 + (b3 - 0x80) * 64 +
              (b4 - 0x80))).map fun c => (c, r)
          else none
        else none
      | _ => none
    else none

theorem utf8DecodeChar_lt (l : List Nat) (res : Char × List Nat)
    (h : utf8DecodeChar l = some res) : res.2.length < l.length := by
  match l with
  | [] => simp [utf8DecodeChar] at h
  | b :: rest =>
    simp only [utf8DecodeChar] at h
    split at h
    · simp only [Option.map_eq_some'] at h
      obtain ⟨c, _, hr⟩ := h
      simp [← hr]
    · split at h
      · exact absurd h (by simp)
      · split at h
        · split at h
          · split at h
            · split at h
              · simp only [Option.map_eq_some'] at h
                obtain ⟨c, _, hr⟩ := h
                rename_i b2 r _ _
                simp [← hr]
                omega
              · exact absurd h (by simp)
            · exact absurd h (by simp)
          · exact absurd h (by simp)
        · split at h
          · split at h
            · split at h
              · split at h
                · simp only [Option.map_eq_some'] at h
                  obtain ⟨c, _, hr⟩ := h
                  rename_i b2 b3 r _ _
                  simp [← hr]
                  omega
                · exact absurd h (by simp)
              · exact absurd h (by simp)
            · exact absurd h (by simp)
          · split at h
            · split at h
              · split at h
                · split at h
                  · simp only [Option.map_eq_some'] at h
                    obtain ⟨c, _, hr⟩ := h
                    rename_i b2 b3 b4 r _ _
                    simp [← hr]
                    omega
                  · exact absurd h (by simp)
                · exact absurd h (by simp)
              · exact absurd h (by simp)
            · exact absurd h (by simp)

/-- Decode UTF-8 bytes back to characters. -/
def utf8Decode (l : List Nat) : Option (List Char) :=
  match l with
  | [] => some []
  | b :: rest =>
    match h : utf8DecodeChar (b :: rest) with
    | some res => (utf8Decode res.2).map fun cs => res.1 :: cs
    | none => none
termination_by l.length
decreasing_by
  exact utf8DecodeChar_lt _ _ h

theorem utf8Decode_nil : utf8Decode [] = some [] := by
  rw [utf8Decode]

theorem utf8Decode_cons_eq (b : Nat) (rest : List Nat) (res : Char × List Nat)
    (h : utf8DecodeChar (b :: rest) = some res) :
    utf8Decode (b :: rest) = (utf8Decode res.2).map fun cs => res.1 :: cs := by
  rw [utf8Decode]
  split
  · rename_i res' heq
    rw [h] at heq
    cases heq
    rfl
  · rename_i heq
    rw [h] at heq
    cases heq

/-- Decoding the bytes of one character recovers it and the rest. -/
theorem utf8DecodeChar_encode (c : Char) (bs : List Nat) :
    utf8DecodeChar (utf8Bytes c ++ bs) = some (c, bs) := by
  have hval := isValidChar_toNat c
  by_cases h1 : c.toNat < 0x80
  · rw [show utf8Bytes c = [c.toNat] from by simp [utf8Bytes, h1]]
    rw [List.singleton_append]
    simp only [utf8DecodeChar, if_pos h1, mkChar_toNat, Option.map_some']
  · by_cases h2 : c.toNat < 0x800
    · rw [show utf8Bytes c = [0xC0 + c.toNat / 64, 0x80 + c.toNat % 64] from by
        simp [utf8Bytes, h1, h2]]
      rw [List.cons_append, List.singleton_append]
      simp only [utf8DecodeChar]
      rw [if_neg (by omega), if_neg (by omega), if_pos (by omega)]
      rw [if_pos (show isCont (0x80 + c.toNat % 64) = true from by
        simp [isCont]; omega)]
      rw [if_pos (by omega)]
      rw [show (0xC0 + c.toNat / 64 - 0xC0) * 64 + (0x80 + c.toNat % 64 - 0x80) =
        c.toNat from by omega]
      rw [mkChar_toNat, Option.map_some']
    · by_cases h3 : c.toNat < 0x10000
      · rw [show utf8Bytes c =
          [0xE0 + c.toNat / 4096, 0x80 + c.toNat / 64 % 64, 0x80 + c.toNat % 64]
          from by simp [utf8Bytes, h1, h2, h3]]
        rw [List.cons_append, List.cons_append, List.singleton_append]
        simp only [utf8DecodeChar]
        rw [if_neg (by omega), if_neg (by omega), if_neg (by omega),
          if_pos (by omega)]
        rw [if_pos (show (isCont (0x80 + c.toNat / 64 % 64) &&
            isCont (0x80 + c.toNat % 64)) = true from by simp [isCont] <;> omega)]
        rw [if_pos (by omega)]
        rw [show (0xE0 + c.toNat / 4096 - 0xE0) * 4096 +
          (0x80 + c.toNat / 64 % 64 - 0x80) * 64 + (0x80 + c.toNat % 64 - 0x80) =
          c.toNat from by omega]
        rw [mkChar_toNat, Option.map_some']
      · have h4 : c.toNat < 0x110000 := by omega
        rw [show utf8Bytes c =
          [0xF0 + c.toNat / 0x40000, 0x80 + c.toNat / 4096 % 64,
            0x80 + c.toNat / 64 % 64, 0x80 + c.toNat % 64]
          from by simp [utf8Bytes, h1, h2, h3]]
        rw [List.cons_append, List.cons_append, List.cons_append,
          List.singleton_append]
        simp only [utf8DecodeChar]
        rw [if_neg (by omega), if_neg (by omega), if_neg (by omega),
          if_neg (by omega), if_pos (by omega)]
        rw [if_pos (show (isCont (0x80 + c.toNat / 4096 % 64) &&
            isCont (0x80 + c.toNat / 64 % 64) &&
            isCont (0x80 + c.toNat % 64)) = true from by simp [isCont] <;> omega)]
        rw [if_pos (by omega)]
        rw [show (0xF0 + c.toNat / 0x40000 - 0xF0) * 0x40000 +
          (0x80 + c.toNat / 4096 % 64 - 0x80) * 4096 +
          (0x80 + c.toNat / 64 % 64 - 0x80) * 64 + (0x80 + c.toNat % 64 - 0x80) =
          c.toNat from by omega]
        rw [mkChar_toNat, Option.map_some']

theorem utf8Bytes_ne_nil (c : Char) : utf8Bytes c ≠ [] := by
  simp only [utf8Bytes]
  split
  · simp
  · split
    · simp
    · split
      · simp
      · simp

/-- Decoding the bytes of one character prepended to anything. -/
theorem utf8Decode_cons (c : Char) (bs : List Nat) :
    utf8Decode (utf8Bytes c ++ bs) =
      (utf8Decode bs).map (fun cs => c :: cs) := by
  cases hE : utf8Bytes c ++ bs with
  | nil =>
      exact absurd (List.append_eq_nil.mp hE).1 (utf8Bytes_ne_nil c)
  | cons b rest =>
      have hch : utf8DecodeChar (b :: rest) = some (c, bs) := by
        rw [← hE]
        exact utf8DecodeChar_encode c bs
      rw [utf8Decode_cons_eq b rest (c, bs) hch]

/-- UTF-8 round-trip. -/
theorem utf8Decode_utf8Encode (s : List Char) :
    utf8Decode (utf8Encode s) = some s := by
  induction s with
  | nil => simpa [utf8Encode] using utf8Decode_nil
  | cons c cs ih =>
      simp only [utf8Encode, List.flatMap_cons] at *
      rw [utf8Decode_cons, ih]
      rfl

theorem utf8Encode_lt_256 (s : List Char) : ∀ b ∈ utf8Encode s, b < 256 := by
  intro b hb
  simp only [utf8Encode, List.mem_flatMap] at hb
  obtain ⟨c, _, hc⟩ := hb
  exact utf8Bytes_lt_256 c b hc

/-! ### String helpers -/

/-- Model of JS `String.prototype.startsWith` on char lists. -/
def hasPre : List Char → List Char → Bool
  | [], _ => true
  | _ :: _, [] => false
  | p :: ps, c :: cs => p == c && hasPre ps cs

theorem hasPre_append (p rest : List Char) : hasPre p (p ++ rest) = true := by
  induction p with
  | nil => rfl
  | cons c cs ih => simp [hasPre, ih]

theorem hasPre_false_of_head_ne (p c : Char) (ps cs : List Char)
    (h : p ≠ c) : hasPre (p :: ps) (c :: cs) = false := by
  simp [hasPre, h]

/-! ### `CacheService.compress` / `CacheService.decompress`

`compress` returns `"compressed:" + base64(data)` when `data.length`
exceeds the threshold (1024), else `data` unchanged; `decompress` reverses
this when the marker is present (`data.slice(11)` is `drop 11`).  The JS
`.length` counts UTF-16 units; the model counts code points, which agrees
on the basic multilingual plane. -/

def compressionThreshold : Nat := 1024

def compressedMarker : String := "compressed:"

def compress (data : String) : String :=
  if data.length > compressionThreshold then
    compressedMarker ++ String.mk (b64encode (utf8Encode data.data))
  else data

def decompress (data : String) : String :=
  if hasPre compressedMarker.data data.data then
    match b64decode (data.data.drop 11) with
    | some bytes =>
      match utf8Decode bytes with
      | some cs => String.mk cs
      | none => ""
    | none => ""
  else data

theorem compress_short (data : String) (h : data.length ≤ compressionThreshold) :
    compress data = data := by
  simp only [compress]
  rw [if_neg (by omega)]

theorem compress_long_marked (data : String)
    (h : data.length > compressionThreshold) :
    hasPre compressedMarker.data (compress data).data = true := by
  simp only [compress, if_pos h, String.data_append]
  exact hasPre_append _ _

/-- `decompress` undoes `compress` on any string that does not itself start
with the marker. -/
theorem decompress_compress (s : String)
    (h : hasPre compressedMarker.data s.data = false) :
    decompress (compress s) = s := by
  by_cases hl : s.length > compressionThreshold
  · simp only [compress, if_pos hl, decompress, String.data_append]
    rw [if_pos (hasPre_append _ _)]
    have hdrop : (compressedMarker.data ++
        (String.mk (b64encode (utf8Encode s.data))).data).drop 11 =
        b64encode (utf8Encode s.data) := by
      rw [show (11 : Nat) = compressedMarker.data.length from by decide]
      exact List.drop_left _ _
    rw [hdrop, b64decode_b64encode _ (utf8Encode_lt_256 s.data)]
    simp only [utf8Decode_utf8Encode]
  · simp only [compress, if_neg hl, decompress, h]
    rfl

/-! ### JSON values

Model of the values `JSON.stringify` / `JSON.parse` handle.  Numbers are
modelled as integers (the code never manipulates numbers itself; the model
fixes the integral fragment of IEEE doubles).  `jsonStr` mirrors
`JSON.stringify`'s output grammar exactly: no whitespace, `\uXXXX` escapes
only for control characters without a short escape. -/

inductive Json where
  | null : Json
  | bool (b : Bool) : Json
  | num (n : Int) : Json
  | str (s : String) : Json
  | arr (elems : List Json) : Json
  | obj (fields : List (String × Json)) : Json

def lcb : Char := Char.ofNat 123

def rcb : Char := Char.ofNat 125

def isDig (c : Char) : Bool := 48 ≤ c.toNat && c.toNat ≤ 57

def digChar (n : Nat) : Char := Char.ofNat (48 + n)

theorem toNat_ofNat_lt (n : Nat) (h : n < 0xD800) : (Char.ofNat n).toNat = n := by
  have hv : Nat.isValidChar n := Or.inl h
  simp only [Char.ofNat, hv, Char.ofNatAux, Char.toNat, dif_pos]
  simp [UInt32.toNat, UInt32.ofNat, BitVec.ofNat, Fin.ofNat]

/-- Decimal digits of `n`, most significant first. -/
def natDigs (n : Nat) : List Char :=
  if n < 10 then [digChar n]
  else natDigs (n / 10) ++ [digChar (n % 10)]
termination_by n
decreasing_by omega

/-- Decimal representation of an integer. -/
def intDigs (n : Int) : List Char :=
  if n < 0 then '-' :: natDigs n.natAbs else natDigs n.natAbs

def hexDig (n : Nat) : Char := "0123456789abcdef".toList.getD n '0'

/-- `JSON.stringify`'s escaping of a single string character. -/
def escChar (c : Char) : List Char :=
  if c = '"' then ['\\', '"']
  else if c = '\\' then ['\\', '\\']
  else if c.toNat = 10 then ['\\', 'n']
  else if c.toNat = 13 then ['\\', 'r']
  else if c.toNat = 9 then ['\\', 't']
  else if c.toNat = 8 then ['\\', 'b']
  else if c.toNat = 12 then ['\\', 'f']
  else if c.toNat < 32 then
    ['\\', 'u', '0', '0', hexDig (c.toNat / 16), hexDig (c.toNat % 16)]
  else [c]

/-- A JSON string literal: quote, escaped body, quote. -/
def escStr (s : List Char) : List Char := '"' :: (s.flatMap escChar ++ ['"'])

mutual

/-- `JSON.stringify` (characters of the output). -/
def jsonStr : Json → List Char
  | .null => ['n', 'u', 'l', 'l']
  | .bool false => ['f', 'a', 'l', 's', 'e']
  | .bool true => ['t', 'r', 'u', 'e']
  | .num n => intDigs n
  | .str s => escStr s.data
  | .arr xs => '[' :: (jsonStrElems xs ++ [']'])
  | .obj kvs => lcb :: (jsonStrFields kvs ++ [rcb])

/-- Comma-separated stringified array elements. -/
def jsonStrElems : List Json → List Char
  | [] => []
  | [x] => jsonStr x
  | x :: y :: rest => jsonStr x ++ ',' :: jsonStrElems (y :: rest)

/-- Comma-separated stringified object fields. -/
def jsonStrFields : List (String × Json) → List Char
  | [] => []
  | [(k, v)] => escStr k.data ++ ':' :: jsonStr v
  | (k, v) :: f :: rest =>
      escStr k.data ++ ':' :: jsonStr v ++ ',' :: jsonStrFields (f :: rest)

end

/-- The platform `JSON.stringify`. -/
def jsonStringify (v : Json) : String := String.mk (jsonStr v)

/-! ### Decimal digits round-trip -/

def natFromDigits (ds : List Char) : Nat :=
  ds.foldl (fun a c => a * 10 + (c.toNat - 48)) 0

/-- Greedily read a decimal number from the head of the input. -/
def parseNat (l : List Char) : Option (Nat × List Char) :=
  if (l.takeWhile isDig).isEmpty then none
  else some (natFromDigits (l.takeWhile isDig), l.dropWhile isDig)

theorem digChar_toNat (n : Nat) (h : n < 10) : (digChar n).toNat = 48 + n :=
  toNat_ofNat_lt _ (by omega)

theorem isDig_digChar (n : Nat) (h : n < 10) : isDig (digChar n) = true := by
  simp [isDig, digChar_toNat n h]
  omega

theorem natDigs_digits (n : Nat) : ∀ c ∈ natDigs n, isDig c = true := by
  induction n using natDigs.induct with
  | case1 n h =>
      rw [natDigs, if_pos h]
      intro c hc
      rw [List.mem_singleton] at hc
      subst hc
      exact isDig_digChar n h
  | case2 n h ih =>
      rw [natDigs, if_neg h]
      intro c hc
      rw [List.mem_append] at hc
      rcases hc with hc | hc
      · exact ih c hc
      · rw [List.mem_singleton] at hc
        subst hc
        exact isDig_digChar _ (by omega)

theorem natDigs_ne_nil (n : Nat) : natDigs n ≠ [] := by
  induction n using natDigs.induct with
  | case1 n h => rw [natDigs, if_pos h]; simp
  | case2 n h ih => rw [natDigs, if_neg h]; simp

theorem natDigs_foldl (n : Nat) :
    ∀ a, (natDigs n).foldl (fun a c => a * 10 + (c.toNat - 48)) a =
      a * 10 ^ (natDigs n).length + n := by
  induction n using natDigs.induct with
  | case1 n h =>
      intro a
      rw [natDigs, if_pos h]
      simp [digChar_toNat n h]
  | case2 n h ih =>
      intro a
      rw [natDigs, if_neg h]
      rw [List.foldl_append, ih a, List.length_append, List.foldl_cons,
        List.foldl_nil, List.length_singleton, digChar_toNat _ (by omega),
        pow_succ]
      have hd := Nat.div_add_mod n 10
      have : 48 + n % 10 - 48 = n % 10 := by omega
      rw [this, Nat.mul_comm (10 ^ (natDigs (n / 10)).length) 10]
      ring_nf
      omega

theorem natFromDigits_natDigs (n : Nat) : natFromDigits (natDigs n) = n := by
  simpa [natFromDigits] using natDigs_foldl n 0

/-- `rest` is empty or starts with a non-digit: decimal parsing stops there. -/
def restOk (rest : List Char) : Prop :=
  rest = [] ∨ ∃ c cs, rest = c :: cs ∧ isDig c = false

theorem takeWhile_append_all (p : Char → Bool) (xs ys : List Char)
    (hx : ∀ x ∈ xs, p x = true)
    (hy : ys = [] ∨ ∃ c cs, ys = c :: cs ∧ p c = false) :
    (xs ++ ys).takeWhile p = xs ∧ (xs ++ ys).dropWhile p = ys := by
  induction xs with
  | nil =>
      rcases hy with rfl | ⟨c, cs, rfl, hc⟩
      · simp
      · simp [List.takeWhile_cons, List.dropWhile_cons, hc]
  | cons x xs ih =>
      have hpx : p x = true := hx x (by simp)
      have ih' := ih (fun y hy' => hx y (by simp [hy']))
      simp [List.takeWhile_cons, List.dropWhile_cons, hpx, ih'.1, ih'.2]

theorem parseNat_natDigs (n : Nat) (rest : List Char) (hrest : restOk rest) :
    parseNat (natDigs n ++ rest) = some (n, rest) := by
  have hspan := takeWhile_append_all isDig (natDigs n) rest (natDigs_digits n)
    hrest
  simp only [parseNat, hspan.1, hspan.2]
  rw [if_neg (by simpa [List.isEmpty_iff] using natDigs_ne_nil n)]
  rw [natFromDigits_natDigs]

/-! ### JSON string-literal bodies -/

def hexVal (c : Char) : Option Nat :=
  if 48 ≤ c.toNat ∧ c.toNat ≤ 57 then some (c.toNat - 48)
  else if 97 ≤ c.toNat ∧ c.toNat ≤ 102 then some (c.toNat - 87)
  else if 65 ≤ c.toNat ∧ c.toNat ≤ 70 then some (c.toNat - 55)
  else none

/-- Parse a string-literal body up to the closing quote, resolving escapes. -/
def parseStrBody : List Char → Option (List Char × List Char)
  | [] => none
  | c :: rest =>
    if c = '"' then some ([], rest)
    else if c = '\\' then
      match rest with
      | [] => none
      | e :: r =>
        if e = '"' then (parseStrBody r).map fun p => ('"' :: p.1, p.2)
        else if e = '\\' then (parseStrBody r).map fun p => ('\\' :: p.1, p.2)
        else if e = '/' then (parseStrBody r).map fun p => ('/' :: p.1, p.2)
        else if e = 'n' then
          (parseStrBody r).map fun p => (Char.ofNat 10 :: p.1, p.2)
        else if e = 'r' then
          (parseStrBody r).map fun p => (Char.ofNat 13 :: p.1, p.2)
        else if e = 't' then
          (parseStrBody r).map fun p => (Char.ofNat 9 :: p.1, p.2)
        else if e = 'b' then
          (parseStrBody r).map fun p => (Char.ofNat 8 :: p.1, p.2)
        else if e = 'f' then
          (parseStrBody r).map fun p => (Char.ofNat 12 :: p.1, p.2)
        else if e = 'u' then
          match r with
          | h1 :: h2 :: h3 :: h4 :: r2 =>
            match hexVal h1, hexVal h2, hexVal h3, hexVal h4 with
            | some a, some b, some c2, some d =>
              match mkChar (a * 4096 + b * 256 + c2 * 16 + d) with
              | some ch => (parseStrBody r2).map fun p => (ch :: p.1, p.2)
              | none => none
            | _, _, _, _ => none
          | _ => none
        else none
    else if c.toNat < 32 then none
    else (parseStrBody rest).map fun p => (c :: p.1, p.2)

theorem char_eq_of_toNat (c d : Char) (h : c.toNat = d.toNat) : c = d := by
  apply Char.ext
  have : c.val.toNat = d.val.toNat := h
  exact UInt32.toNat.inj this

theorem hexVal_hexDig : ∀ n < 16, hexVal (hexDig n) = some n := by decide

theorem parseStrBody_esc (c : Char) (rest : List Char) :
    parseStrBody (escChar c ++ rest) =
      (parseStrBody rest).map fun p => (c :: p.1, p.2) := by
  by_cases h1 : c = '"'
  · subst h1
    simp +decide only [escChar, List.cons_append, List.nil_append, reduceIte]
    rw [parseStrBody.eq_def]
    simp +decide
  · by_cases h2 : c = '\\'
    · subst h2
      simp +decide only [escChar, List.cons_append, List.nil_append, reduceIte]
      rw [parseStrBody.eq_def]
      simp +decide
    · by_cases h3 : c.toNat = 10
      · have hc : c = Char.ofNat 10 := char_eq_of_toNat _ _ (by
          rw [h3, toNat_ofNat_lt 10 (by omega)])
        subst hc
        simp +decide only [escChar, List.cons_append, List.nil_append, reduceIte]
        rw [parseStrBody.eq_def]
        simp +decide
      · by_cases h4 : c.toNat = 13
        · have hc : c = Char.ofNat 13 := char_eq_of_toNat _ _ (by
            rw [h4, toNat_ofNat_lt 13 (by omega)])
          subst hc
          simp +decide only [escChar, List.cons_append, List.nil_append,
            reduceIte]
          rw [parseStrBody.eq_def]
          simp +decide
        · by_cases h5 : c.toNat = 9
          · have hc : c = Char.ofNat 9 := char_eq_of_toNat _ _ (by
              rw [h5, toNat_ofNat_lt 9 (by omega)])
            subst hc
            simp +decide only [escChar, List.cons_append, List.nil_append,
              reduceIte]
            rw [parseStrBody.eq_def]
            simp +decide
          · by_cases h6 : c.toNat = 8
            · have hc : c = Char.ofNat 8 := char_eq_of_toNat _ _ (by
                rw [h6, toNat_ofNat_lt 8 (by omega)])
              subst hc
              simp +decide only [escChar, List.cons_append, List.nil_append,
                reduceIte]
              rw [parseStrBody.eq_def]
              simp +decide
            · by_cases h7 : c.toNat = 12
              · have hc : c = Char.ofNat 12 := char_eq_of_toNat _ _ (by
                  rw [h7, toNat_ofNat_lt 12 (by omega)])
                subst hc
                simp +decide only [escChar, List.cons_append, List.nil_append,
                  reduceIte]
                rw [parseStrBody.eq_def]
                simp +decide
              · by_cases h8 : c.toNat < 32
                · have e1 : hexVal (hexDig (c.toNat / 16)) =
                      some (c.toNat / 16) := hexVal_hexDig _ (by omega)
                  have e2 : hexVal (hexDig (c.toNat % 16)) =
                      some (c.toNat % 16) := hexVal_hexDig _ (by omega)
                  have e3 : 0 * 4096 + 0 * 256 + c.toNat / 16 * 16 +
                      c.toNat % 16 = c.toNat := by omega
                  simp only [escChar, if_neg h1, if_neg h2, if_neg h3, if_neg h4,
                    if_neg h5, if_neg h6, if_neg h7, if_pos h8, List.cons_append,
                    List.nil_append]
                  rw [parseStrBody.eq_def]
                  simp +decide [e1, e2]
                  rw [show hexVal '0' = some 0 from by decide]
                  have e4 : mkChar (c.toNat / 16 * 16 + c.toNat % 16) = some c := by
                    rw [show c.toNat / 16 * 16 + c.toNat % 16 = c.toNat from by
                      omega, mkChar_toNat]
                  simp [e4]
                · simp only [escChar, if_neg h1, if_neg h2, if_neg h3, if_neg h4,
                    if_neg h5, if_neg h6, if_neg h7, if_neg h8,
                    List.singleton_append]
                  rw [parseStrBody.eq_def]
                  simp [h1, h2, h8]

/-- Round trip for a full string-literal body followed by the closing quote. -/
theorem parseStrBody_escBody (s rest : List Char) :
    parseStrBody (s.flatMap escChar ++ '"' :: rest) = some (s, rest) := by
  induction s with
  | nil =>
      simp only [List.flatMap_nil, List.nil_append]
      rw [parseStrBody.eq_def]
      simp +decide
  | cons c cs ih =>
      rw [List.flatMap_cons, List.append_assoc, parseStrBody_esc, ih]
      rfl

/-! ### JSON value parsing (model of `JSON.parse`, on `JSON.stringify`'s
output grammar: no whitespace, integral numbers) -/

def expectNull : List Char → Option (Json × List Char)
  | 'u' :: 'l' :: 'l' :: r => some (.null, r)
  | _ => none

def expectTrue : List Char → Option (Json × List Char)
  | 'r' :: 'u' :: 'e' :: r => some (.bool true, r)
  | _ => none

def expectFalse : List Char → Option (Json × List Char)
  | 'a' :: 'l' :: 's' :: 'e' :: r => some (.bool false, r)
  | _ => none

mutual

def parseVal : Nat → List Char → Option (Json × List Char)
  | 0, _ => none
  | fuel + 1, input =>
    match input with
    | [] => none
    | c :: rest =>
      if c = 'n' then expectNull rest
      else if c = 't' then expectTrue rest
      else if c = 'f' then expectFalse rest
      else if c = '-' then
        (parseNat rest).map fun p => (.num (-(p.1 : Int)), p.2)
      else if c = '"' then
        (parseStrBody rest).map fun p => (.str (String.mk p.1), p.2)
      else if c = '[' then
        (parseArr fuel rest).map fun p => (.arr p.1, p.2)
      else if c = lcb then
        (parseObj fuel rest).map fun p => (.obj p.1, p.2)
      else
        (parseNat (c :: rest)).map fun p => (.num (p.1 : Int), p.2)

def parseArr : Nat → List Char → Option (List Json × List Char)
  | fuel, input =>
    match input with
    | [] => none
    | d :: r2 => if d = ']' then some ([], r2) else parseElems fuel (d :: r2)

def parseObj : Nat → List Char → Option (List (String × Json) × List Char)
  | fuel, input =>
    match input with
    | [] => none
    | d :: r2 => if d = rcb then some ([], r2) else parseFields fuel (d :: r2)

def parseElems : Nat → List Char → Option (List Json × List Char)
  | 0, _ => none
  | fuel + 1, input =>
    (parseVal fuel input).bind fun p =>
      match p.2 with
      | [] => none
      | c :: r2 =>
        if c = ',' then (parseElems fuel r2).map fun q => (p.1 :: q.1, q.2)
        else if c = ']' then some ([p.1], r2)
        else none

def parseFields : Nat → List Char → Option (List (String × Json) × List Char)
  | 0, _ => none
  | fuel + 1, input =>
    match input with
    | [] => none
    | c :: rest =>
      if c = '"' then
        (parseStrBody rest).bind fun pk =>
          match pk.2 with
          | [] => none
          | d :: r2 =>
            if d = ':' then
              (parseVal fuel r2).bind fun pv =>
                match pv.2 with
                | [] => none
                | e :: r4 =>
                  if e = ',' then
                    (parseFields fuel r4).map fun q =>
                      ((String.mk pk.1, pv.1) :: q.1, q.2)
                  else if e = rcb then some ([(String.mk pk.1, pv.1)], r4)
                  else none
            else none
      else none

end

/-- The platform `JSON.parse` (requires the whole input to be consumed). -/
def jsonParse (s : String) : Option Json :=
  match parseVal (s.data.length + 1) s.data with
  | some (v, []) => some v
  | _ => none

/-! ### Size measures and head characters -/

mutual

def jsonSize : Json → Nat
  | .null => 1
  | .bool _ => 1
  | .num _ => 1
  | .str _ => 1
  | .arr xs => 1 + jsonSizeL xs
  | .obj kvs => 1 + jsonSizeF kvs

def jsonSizeL : List Json → Nat
  | [] => 0
  | x :: xs => 1 + jsonSize x + jsonSizeL xs

def jsonSizeF : List (String × Json) → Nat
  | [] => 0
  | (_, v) :: xs => 1 + jsonSize v + jsonSizeF xs

end

theorem jsonSize_pos (v : Json) : 1 ≤ jsonSize v := by
  cases v <;> simp [jsonSize] <;> omega

/-- The characters that can begin `JSON.stringify` output. -/
def jsonHead (c : Char) : Bool :=
  c = 'n' || c = 't' || c = 'f' || c = '-' || c = '"' || c = '[' || c = lcb ||
    isDig c

theorem natDigs_head (n : Nat) :
    ∃ c cs, natDigs n = c :: cs ∧ isDig c = true := by
  induction n using natDigs.induct with
  | case1 n h =>
      rw [natDigs, if_pos h]
      exact ⟨digChar n, [], rfl, isDig_digChar n h⟩
  | case2 n h ih =>
      rw [natDigs, if_neg h]
      obtain ⟨c, cs, hc, hd⟩ := ih
      exact ⟨c, cs ++ [digChar (n % 10)], by rw [hc, List.cons_append], hd⟩

theorem jsonStr_head (v : Json) :
    ∃ c cs, jsonStr v = c :: cs ∧ jsonHead c = true := by
  cases v with
  | null => exact ⟨'n', _, rfl, by decide⟩
  | bool b =>
      cases b
      · exact ⟨'f', _, rfl, by decide⟩
      · exact ⟨'t', _, rfl, by decide⟩
  | num n =>
      by_cases hn : n < 0
      · exact ⟨'-', natDigs n.natAbs, by simp [jsonStr, intDigs, hn], by decide⟩
      · obtain ⟨c, cs, hc, hd⟩ := natDigs_head n.natAbs
        exact ⟨c, cs, by simp [jsonStr, intDigs, hn, hc], by simp [jsonHead, hd]⟩
  | str s => exact ⟨'"', _, rfl, by decide⟩
  | arr xs => exact ⟨'[', _, rfl, by decide⟩
  | obj kvs => exact ⟨lcb, _, rfl, by simp +decide [jsonHead]⟩

theorem jsonStrElems_head (x : Json) (t : List Json) :
    ∃ c cs, jsonStrElems (x :: t) = c :: cs ∧ jsonHead c = true := by
  obtain ⟨c, cs, hc, hd⟩ := jsonStr_head x
  cases t with
  | nil => exact ⟨c, cs, by simp [jsonStrElems, hc], hd⟩
  | cons y t' =>
      exact ⟨c, cs ++ ',' :: jsonStrElems (y :: t'), by
        rw [jsonStrElems, hc, List.cons_append], hd⟩

theorem jsonHead_ne_rbrack (c : Char) (h : jsonHead c = true) : c ≠ ']' := by
  intro hc
  subst hc
  revert h
  decide

theorem jsonHead_ne_rcb (c : Char) (h : jsonHead c = true) : c ≠ rcb := by
  intro hc
  subst hc
  revert h
  decide

theorem jsonHead_ne_marker (c : Char) (h : jsonHead c = true) :
    ('c' == c) = false := by
  have hne : c ≠ 'c' := by
    intro hc
    subst hc
    revert h
    decide
  simp only [beq_eq_false_iff_ne, ne_eq]
  exact fun hc => hne hc.symm

theorem isDig_ne_keyword (c : Char) (h : isDig c = true) :
    c ≠ 'n' ∧ c ≠ 't' ∧ c ≠ 'f' ∧ c ≠ '-' ∧ c ≠ '"' ∧ c ≠ '[' ∧ c ≠ lcb := by
  refine ⟨?_, ?_, ?_, ?_, ?_, ?_, ?_⟩ <;> (intro hc; subst hc; revert h; decide)

theorem restOk_nil : restOk [] := Or.inl rfl

theorem restOk_comma (r : List Char) : restOk (',' :: r) :=
  Or.inr ⟨',', r, rfl, by decide⟩

theorem restOk_rbrack (r : List Char) : restOk (']' :: r) :=
  Or.inr ⟨']', r, rfl, by decide⟩

theorem restOk_rcb (r : List Char) : restOk (rcb :: r) :=
  Or.inr ⟨rcb, r, rfl, by decide⟩

def jsonStrFieldsTail : List (String × Json) → List Char
  | [] => []
  | f :: t' => ',' :: jsonStrFields (f :: t')

theorem jsonStrFields_head (k : String) (v : Json) (t : List (String × Json)) :
    jsonStrFields ((k, v) :: t) =
      '"' :: (k.data.flatMap escChar ++ '"' ::
        (':' :: jsonStr v ++ jsonStrFieldsTail t)) := by
  cases t with
  | nil =>
      simp [jsonStrFields, jsonStrFieldsTail, escStr, List.append_assoc]
  | cons f t' =>
      simp [jsonStrFields, jsonStrFieldsTail, escStr, List.append_assoc]

/-- The full parser round-trip, by induction on fuel. -/
theorem parse_ok (fuel : Nat) :
    (∀ v rest, jsonSize v ≤ fuel → restOk rest →
      parseVal fuel (jsonStr v ++ rest) = some (v, rest)) ∧
    (∀ xs rest, xs ≠ [] → jsonSizeL xs ≤ fuel → restOk rest →
      parseElems fuel (jsonStrElems xs ++ ']' :: rest) = some (xs, rest)) ∧
    (∀ kvs rest, kvs ≠ [] → jsonSizeF kvs ≤ fuel → restOk rest →
      parseFields fuel (jsonStrFields kvs ++ rcb :: rest) = some (kvs, rest)) := by
  induction fuel with
  | zero =>
      refine ⟨?_, ?_, ?_⟩
      · intro v rest hs _
        have := jsonSize_pos v
        omega
      · intro xs rest hne hs _
        cases xs with
        | nil => exact absurd rfl hne
        | cons x t => simp [jsonSizeL] at hs
      · intro kvs rest hne hs _
        cases kvs with
        | nil => exact absurd rfl hne
        | cons f t =>
            obtain ⟨k, v⟩ := f
            simp [jsonSizeF] at hs
  | succ fuel ih =>
      obtain ⟨ihA, ihB, ihC⟩ := ih
      refine ⟨?_, ?_, ?_⟩
      · intro v rest hs hrest
        cases v with
        | null =>
            rw [show jsonStr .null ++ rest = 'n' :: 'u' :: 'l' :: 'l' :: rest
              from rfl]
            rw [parseVal.eq_def]
            simp +decide [expectNull]
        | bool b =>
            cases b
            · rw [show jsonStr (.bool false) ++ rest =
                'f' :: 'a' :: 'l' :: 's' :: 'e' :: rest from rfl]
              rw [parseVal.eq_def]
              simp +decide [expectFalse]
            · rw [show jsonStr (.bool true) ++ rest =
                't' :: 'r' :: 'u' :: 'e' :: rest from rfl]
              rw [parseVal.eq_def]
              simp +decide [expectTrue]
        | num n =>
            by_cases hn : n < 0
            · have hp := parseNat_natDigs n.natAbs rest hrest
              rw [show jsonStr (.num n) ++ rest =
                '-' :: (natDigs n.natAbs ++ rest) from by
                  simp [jsonStr, intDigs, hn]]
              rw [parseVal.eq_def]
              simp +decide [hp, abs_of_neg hn]
            · obtain ⟨c, cs, hc, hd⟩ := natDigs_head n.natAbs
              obtain ⟨k1, k2, k3, k4, k5, k6, k7⟩ := isDig_ne_keyword c hd
              have habs : ((n.natAbs : Int)) = n := by omega
              rw [show jsonStr (.num n) ++ rest = c :: (cs ++ rest) from by
                simp [jsonStr, intDigs, hn, hc]]
              rw [parseVal.eq_def]
              simp only
              rw [if_neg k1, if_neg k2, if_neg k3, if_neg k4, if_neg k5,
                if_neg k6, if_neg k7]
              rw [show c :: (cs ++ rest) = natDigs n.natAbs ++ rest from by
                rw [hc, List.cons_append]]
              rw [parseNat_natDigs n.natAbs rest hrest]
              simp [habs]
        | str s =>
            obtain ⟨sd⟩ := s
            rw [show jsonStr (.str ⟨sd⟩) ++ rest =
              '"' :: (sd.flatMap escChar ++ '"' :: rest) from by
                simp [jsonStr, escStr, List.append_assoc]]
            rw [parseVal.eq_def]
            simp +decide [parseStrBody_escBody]
        | arr xs =>
            cases xs with
            | nil =>
                rw [show jsonStr (.arr []) ++ rest = '[' :: ']' :: rest from by
                  simp [jsonStr, jsonStrElems]]
                rw [parseVal.eq_def]
                simp +decide [parseArr.eq_def]
            | cons x t =>
                obtain ⟨d, ds, hds, hdh⟩ := jsonStrElems_head x t
                have hdr := jsonHead_ne_rbrack d hdh
                have hA : parseArr fuel (d :: (ds ++ ']' :: rest)) =
                    some (x :: t, rest) := by
                  rw [parseArr.eq_def]
                  simp only
                  rw [if_neg hdr]
                  rw [show d :: (ds ++ ']' :: rest) =
                    jsonStrElems (x :: t) ++ ']' :: rest from by
                      rw [hds, List.cons_append]]
                  exact ihB (x :: t) rest (by simp) (by
                    simp [jsonSize] at hs
                    omega) hrest
                rw [show jsonStr (.arr (x :: t)) ++ rest =
                  '[' :: (d :: (ds ++ ']' :: rest)) from by
                    simp [jsonStr, hds, List.append_assoc]]
                rw [parseVal.eq_def]
                simp +decide [hA]
        | obj kvs =>
            cases kvs with
            | nil =>
                rw [show jsonStr (.obj []) ++ rest = lcb :: rcb :: rest from by
                  simp [jsonStr, jsonStrFields]]
                rw [parseVal.eq_def]
                simp +decide [parseObj.eq_def]
            | cons f t =>
                obtain ⟨k, v⟩ := f
                have hO : parseObj fuel
                    (jsonStrFields ((k, v) :: t) ++ rcb :: rest) =
                    some ((k, v) :: t, rest) := by
                  rw [jsonStrFields_head k v t, List.cons_append]
                  rw [parseObj.eq_def]
                  simp only
                  rw [if_neg (by decide)]
                  rw [← List.cons_append, ← jsonStrFields_head k v t]
                  exact ihC ((k, v) :: t) rest (by simp) (by
                    simp [jsonSize] at hs
                    omega) hrest
                rw [show jsonStr (.obj ((k, v) :: t)) ++ rest =
                  lcb :: (jsonStrFields ((k, v) :: t) ++ rcb :: rest) from by
                    simp [jsonStr, List.append_assoc]]
                rw [parseVal.eq_def]
                simp +decide [hO]
      · intro xs rest hne hs hrest
        cases xs with
        | nil => exact absurd rfl hne
        | cons x t =>
            cases t with
            | nil =>
                have hv := ihA x (']' :: rest) (by
                  simp [jsonSizeL] at hs
                  omega) (restOk_rbrack rest)
                rw [show jsonStrElems [x] ++ ']' :: rest =
                  jsonStr x ++ ']' :: rest from by simp [jsonStrElems]]
                rw [parseElems.eq_def]
                simp +decide [hv]
            | cons y t' =>
                have hv := ihA x
                  (',' :: (jsonStrElems (y :: t') ++ ']' :: rest)) (by
                    simp [jsonSizeL] at hs
                    omega) (restOk_comma _)
                have hB := ihB (y :: t') rest (by simp) (by
                  have := jsonSize_pos x
                  simp [jsonSizeL] at hs ⊢
                  omega) hrest
                rw [show jsonStrElems (x :: y :: t') ++ ']' :: rest =
                  jsonStr x ++ ',' :: (jsonStrElems (y :: t') ++ ']' :: rest)
                  from by simp [jsonStrElems, List.append_assoc]]
                rw [parseElems.eq_def]
                simp +decide [hv, hB]
      · intro kvs rest hne hs hrest
        cases kvs with
        | nil => exact absurd rfl hne
        | cons f t =>
            obtain ⟨k, v⟩ := f
            obtain ⟨kd⟩ := k
            cases t with
            | nil =>
                have hv := ihA v (rcb :: rest) (by
                  simp [jsonSizeF] at hs
                  omega) (restOk_rcb rest)
                rw [show jsonStrFields [(⟨kd⟩, v)] ++ rcb :: rest =
                  '"' :: (kd.flatMap escChar ++ '"' ::
                    (':' :: (jsonStr v ++ rcb :: rest))) from by
                  rw [jsonStrFields_head]
                  simp [jsonStrFieldsTail, List.append_assoc]]
                rw [parseFields.eq_def]
                simp +decide [parseStrBody_escBody, hv]
            | cons f' t' =>
                have hv := ihA v
                  (',' :: (jsonStrFields (f' :: t') ++ rcb :: rest)) (by
                    simp [jsonSizeF] at hs
                    omega) (restOk_comma _)
                have hC := ihC (f' :: t') rest (by simp) (by
                  have := jsonSize_pos v
                  simp [jsonSizeF] at hs ⊢
                  omega) hrest
                rw [show jsonStrFields ((⟨kd⟩, v) :: f' :: t') ++ rcb :: rest =
                  '"' :: (kd.flatMap escChar ++ '"' ::
                    (':' :: (jsonStr v ++ ',' ::
                      (jsonStrFields (f' :: t') ++ rcb :: rest)))) from by
                  rw [jsonStrFields_head]
                  simp [jsonStrFieldsTail, List.append_assoc]]
                rw [parseFields.eq_def]
                simp +decide [parseStrBody_escBody, hv, hC]

theorem size_le_len (N : Nat) :
    (∀ v, jsonSize v ≤ N → jsonSize v ≤ (jsonStr v).length) ∧
    (∀ xs, jsonSizeL xs ≤ N → jsonSizeL xs ≤ (jsonStrElems xs).length + 1) ∧
    (∀ kvs, jsonSizeF kvs ≤ N →
      jsonSizeF kvs ≤ (jsonStrFields kvs).length + 1) := by
  induction N with
  | zero =>
      refine ⟨?_, ?_, ?_⟩
      · intro v hv
        have := jsonSize_pos v
        omega
      · intro xs hxs
        cases xs with
        | nil => simp [jsonSizeL]
        | cons x t => simp [jsonSizeL] at hxs
      · intro kvs hkvs
        cases kvs with
        | nil => simp [jsonSizeF]
        | cons f t =>
            obtain ⟨k, v⟩ := f
            simp [jsonSizeF] at hkvs
  | succ N ih =>
      obtain ⟨ihA, ihB, ihC⟩ := ih
      refine ⟨?_, ?_, ?_⟩
      · intro v hv
        cases v with
        | null => simp [jsonSize, jsonStr]
        | bool b => cases b <;> simp [jsonSize, jsonStr]
        | num n =>
            obtain ⟨c, cs, hc, _⟩ := jsonStr_head (.num n)
            simp [jsonSize, hc]
        | str s =>
            simp [jsonSize, jsonStr, escStr]
        | arr xs =>
            have hb := ihB xs (by simp [jsonSize] at hv; omega)
            simp only [jsonSize, jsonStr, List.length_cons, List.length_append,
              List.length_singleton] at *
            omega
        | obj kvs =>
            have hc := ihC kvs (by simp [jsonSize] at hv; omega)
            simp only [jsonSize, jsonStr, List.length_cons, List.length_append,
              List.length_singleton] at *
            omega
      · intro xs hxs
        cases xs with
        | nil => simp [jsonSizeL]
        | cons x t =>
            have hx := ihA x (by
              have := jsonSize_pos x
              simp [jsonSizeL] at hxs
              omega)
            cases t with
            | nil =>
                simp only [jsonSizeL, jsonStrElems] at *
                omega
            | cons y t' =>
                have ht := ihB (y :: t') (by
                  have := jsonSize_pos x
                  simp [jsonSizeL] at hxs ⊢
                  omega)
                simp only [jsonSizeL, jsonStrElems, List.length_append,
                  List.length_cons] at *
                omega
      · intro kvs hkvs
        cases kvs with
        | nil => simp [jsonSizeF]
        | cons f t =>
            obtain ⟨k, v⟩ := f
            have hx := ihA v (by
              have := jsonSize_pos v
              simp [jsonSizeF] at hkvs
              omega)
            cases t with
            | nil =>
                simp only [jsonSizeF, jsonStrFields, List.length_append,
                  List.length_cons] at *
                omega
            | cons f' t' =>
                have ht := ihC (f' :: t') (by
                  have := jsonSize_pos v
                  simp [jsonSizeF] at hkvs ⊢
                  omega)
                simp only [jsonSizeF, jsonStrFields, List.length_append,
                  List.length_cons] at *
                omega

/-- `JSON.parse` inverts `JSON.stringify`. -/
theorem jsonParse_jsonStringify (v : Json) :
    jsonParse (jsonStringify v) = some v := by
  have hsz : jsonSize v ≤ (jsonStr v).length + 1 := by
    have := (size_le_len (jsonSize v)).1 v le_rfl
    omega
  have h := (parse_ok ((jsonStr v).length + 1)).1 v [] hsz restOk_nil
  rw [List.append_nil] at h
  simp only [jsonParse, jsonStringify]
  rw [h]

/-- `JSON.stringify` output never starts with the compression marker. -/
theorem jsonStr_no_marker (v : Json) :
    hasPre compressedMarker.data (jsonStr v) = false := by
  obtain ⟨c, cs, hc, hd⟩ := jsonStr_head v
  rw [hc, show compressedMarker.data = 'c' :: "ompressed:".data from rfl]
  simp [hasPre, jsonHead_ne_marker c hd]

/-! ### Redis store model

The store is an association list from keys to values (strings or sets),
each with an optional remaining TTL in seconds (none = no expiry), plus a
`down` flag under which every command fails.  Writes are modelled at the
instant they happen (no clock advances between operations). -/

inductive RVal where
  | str (s : String) : RVal
  | rset (members : List String) : RVal

structure RState where
  entries : List (String × RVal × Option Nat)
  down : Bool

def alookup : List (String × RVal × Option Nat) → String →
    Option (RVal × Option Nat)
  | [], _ => none
  | (k, v, t) :: rest, key => if k = key then some (v, t) else alookup rest key

def aremove : List (String × RVal × Option Nat) → String →
    List (String × RVal × Option Nat)
  | [], _ => []
  | e :: rest, key =>
      if e.1 = key then aremove rest key else e :: aremove rest key

def aset (l : List (String × RVal × Option Nat)) (key : String) (v : RVal)
    (t : Option Nat) : List (String × RVal × Option Nat) :=
  (key, v, t) :: aremove l key

/-- `SETEX key ttl value` (pipelined; always succeeds when the connection
is up). -/
def pSETEX (st : RState) (key : String) (ttl : Nat) (v : String) : RState :=
  { st with entries := aset st.entries key (.str v) (some ttl) }

/-- `SADD key member` (pipelined).  On a wrong-type key the command errors
and leaves the store unchanged; pipeline execution continues and the
service ignores per-command results. -/
def pSADD (st : RState) (key member : String) : RState :=
  match alookup st.entries key with
  | some (.rset ms, t) =>
      { st with
        entries := aset st.entries key
          (.rset (if member ∈ ms then ms else ms ++ [member])) t }
  | some (.str _, _) => st
  | none => { st with entries := aset st.entries key (.rset [member]) none }

/-- `EXPIRE key ttl` (pipelined): sets the expiry if the key exists. -/
def pEXPIRE (st : RState) (key : String) (ttl : Nat) : RState :=
  match alookup st.entries key with
  | some (v, _) => { st with entries := aset st.entries key v (some ttl) }
  | none => st

/-- `DEL key` (pipelined): removes the key, reporting whether it existed. -/
def pDEL (st : RState) (key : String) : RState × Bool :=
  ({ st with entries := aremove st.entries key },
    (alookup st.entries key).isSome)

/-- `GET key`: errors when the connection is down or the key holds a set. -/
def rGET (st : RState) (key : String) : Except String (Option String) :=
  if st.down then .error "connection"
  else
    match alookup st.entries key with
    | some (.str s, _) => .ok (some s)
    | some (.rset _, _) => .error "WRONGTYPE"
    | none => .ok none

/-- `SMEMBERS key`: errors when down or on a wrong-type key. -/
def rSMEMBERS (st : RState) (key : String) : Except String (List String) :=
  if st.down then .error "connection"
  else
    match alookup st.entries key with
    | some (.rset ms, _) => .ok ms
    | some (.str _, _) => .error "WRONGTYPE"
    | none => .ok []

/-- The result of Redis `TTL key`: seconds remaining, `-1` without expiry,
`-2` for an absent key. -/
def ttlOf (st : RState) (key : String) : Int :=
  match alookup st.entries key with
  | none => -2
  | some (_, none) => -1
  | some (_, some t) => (t : Int)

/-! ### Glob matching (model of Redis `stringmatchlen`, used by `SCAN`) -/

/-- Split a character class at the closing bracket. -/
def classSpan : List Char → Option (List Char × List Char)
  | [] => none
  | ']' :: rest => some ([], rest)
  | c :: rest => (classSpan rest).map fun p => (c :: p.1, p.2)

def classChars : List Char → Char → Bool
  | a :: '-' :: b :: rest, c =>
      (decide (a ≤ c) && decide (c ≤ b)) || classChars rest c
  | a :: rest, c => a == c || classChars rest c
  | [], _ => false

def classMember (cls : List Char) (c : Char) : Bool :=
  match cls with
  | '^' :: rest => !(classChars rest c)
  | _ => classChars cls c

/-- Redis glob matching: `*`, `?`, `[...]` classes, `\\` escapes.  The
inner matches on `classSpan ps` and on `ps` are written with `Option.elim`
(`ps.head?` holding the escaped character). -/
def globMatch : List Char → List Char → Bool
  | [], [] => true
  | [], _ :: _ => false
  | p :: ps, [] =>
      if p = '*' then globMatch ps [] else false
  | p :: ps, c :: cs =>
      if p = '*' then globMatch ps (c :: cs) || globMatch (p :: ps) cs
      else if p = '?' then globMatch ps cs
      else if p = '[' then
        (classSpan ps).elim false
          (fun pr => if classMember pr.1 c then globMatch pr.2 cs else false)
      else if p = '\\' then
        ps.head?.elim (p == c && globMatch ps cs)
          (fun e => e == c && globMatch ps.tail cs)
      else p == c && globMatch ps cs
termination_by p s => (s.length, p.length)

/-- All keys in the store matching a glob pattern (the `SCAN` loop: the
cursor walk with `COUNT 100` enumerates the whole keyspace; `COUNT` is a
batching hint and does not affect the result). -/
def scanKeys (st : RState) (pattern : String) : List String :=
  (st.entries.map fun e => e.1).filter fun k => globMatch pattern.data k.data

/-! ### `CacheService` (`src/core/cache.ts`)

Each method takes and returns the store state explicitly.  The service's
internal `try`/`catch` blocks are modelled by total functions returning the
logged-and-defaulted value on the failure paths. -/

structure CacheService where
  /-- `namespace` in the source (a Lean keyword, hence `ns` here). -/
  ns : String
  defaultTTL : Nat

/-- `generateKey(key, namespace?)`. -/
def CacheService.generateKey (c : CacheService) (key : String)
    (nsOver : Option String) : String :=
  nsOver.getD c.ns ++ ":" ++ key

/-- JS `x === null` on a `get` result (a stored JSON `null` parses back to
the same `null` the miss path returns). -/
def jsIsNull : Option Json → Bool
  | none => true
  | some .null => true
  | some _ => false

/-- `CacheService.get`: parse (and decompress) the stored payload; every
failure is caught internally and surfaces as `null` (`none`). -/
def CacheService.get (c : CacheService) (st : RState) (key : String)
    (nsOver : Option String) : Option Json :=
  match rGET st (c.generateKey key nsOver) with
  | .ok (some data) =>
      if data = "" then none
      else jsonParse (decompress data)
  | .ok none => none
  | .error _ => none

/-- The effective expiry `ttl || this.defaultTTL` (JS: `0` is falsy). -/
def CacheService.effTTL (c : CacheService) (ttl : Option Nat) : Nat :=
  match ttl with
  | some t => if t = 0 then c.defaultTTL else t
  | none => c.defaultTTL

/-- `CacheService.set`: serialize, compress, `SETEX`, and for each tag
`SADD` the full key into the tag set and `EXPIRE` the tag set to the
entry's expiry, all in one pipeline.  Returns success and the new state;
when the connection is down the pipeline fails, the error is caught, and
`false` is returned with the store unchanged. -/
def CacheService.set (c : CacheService) (st : RState) (key : String)
    (value : Json) (ttl : Option Nat) (tags : List String) : Bool × RState :=
  let fullKey := c.generateKey key none
  let expiry := c.effTTL ttl
  if st.down then (false, st)
  else
    let data := compress (jsonStringify value)
    let st1 := pSETEX st fullKey expiry data
    let st2 := tags.foldl (fun acc tag =>
      pEXPIRE (pSADD acc (c.generateKey ("tag:" ++ tag) none) fullKey)
        (c.generateKey ("tag:" ++ tag) none) expiry) st1
    (true, st2)

/-- `CacheService.del`. -/
def CacheService.del (c : CacheService) (st : RState) (key : String)
    (nsOver : Option String) : Bool × RState :=
  if st.down then (false, st)
  else (true, (pDEL st (c.generateKey key nsOver)).1)

/-- The per-tag loop of `invalidateByTags`: read the members, delete every
member key and the tag set (counting only the members), and continue.  A
thrown store command aborts the loop; the surrounding `catch` returns `0`
(not the partial total). -/
def invalidateLoop (c : CacheService) : RState → List String → Nat →
    Nat × RState
  | st, [], acc => (acc, st)
  | st, tag :: rest, acc =>
      match rSMEMBERS st (c.generateKey ("tag:" ++ tag) none) with
      | .error _ => (0, st)
      | .ok keys =>
          if keys.length > 0 then
            let st1 := keys.foldl (fun acc2 k => (pDEL acc2 k).1) st
            let st2 := (pDEL st1 (c.generateKey ("tag:" ++ tag) none)).1
            invalidateLoop c st2 rest (acc + keys.length)
          else invalidateLoop c st rest acc

/-- `CacheService.invalidateByTags`. -/
def CacheService.invalidateByTags (c : CacheService) (st : RState)
    (tags : List String) : Nat × RState :=
  invalidateLoop c st tags 0

/-- The batch-deletion loop of `delPattern`: delete at most 100 keys per
`DEL` command, accumulating `batch.length` into the returned total. -/
def delBatches : RState → List String → Nat × RState
  | st, [] => (0, st)
  | st, k :: ks =>
      let batch := (k :: ks).take 100
      let st1 := batch.foldl (fun acc k => (pDEL acc k).1) st
      let p := delBatches st1 ((k :: ks).drop 100)
      (batch.length + p.1, p.2)
termination_by _ l => l.length
decreasing_by
  simp only [List.length_drop, List.length_cons]
  omega

/-- `CacheService.delPattern`: `SCAN` for the namespaced pattern, then
delete the collected keys in batches of 100, returning the total. -/
def CacheService.delPattern (c : CacheService) (st : RState)
    (pattern : String) : Nat × RState :=
  if st.down then (0, st)
  else
    let keysToDelete := scanKeys st (c.generateKey pattern none)
    if keysToDelete.length > 0 then delBatches st keysToDelete
    else (0, st)

/-- `CacheService.getOrSet` with a deterministic fetcher (`Except.error`
models a rejecting fetcher).  Returns the result, the new state, and how
often the fetcher ran: on a fetcher failure inside the `try`, the `catch`
invokes the fetcher again and that failure propagates. -/
def CacheService.getOrSet (c : CacheService) (st : RState) (key : String)
    (fetcher : Except String Json) (ttl : Option Nat) (tags : List String) :
    Except String Json × RState × Nat :=
  let cached := c.get st key none
  if jsIsNull cached = false then (.ok (cached.getD .null), st, 0)
  else
    match fetcher with
    | .ok data =>
        let p := c.set st key data ttl tags
        (.ok data, p.2, 1)
    | .error e => (.error e, st, 2)

/-! ### Express middleware (`src/adapters/express.ts`) -/

/-- The default cache-key generator of `cacheMiddleware`: `[method, path]`,
then an md5 hex digest of the sorted `key=value` query string when it is
non-empty, then `user:<id>` when `includeAuth` is set and `req.user?.id`
is truthy, joined with `:`.  The digest function is passed in (md5 is a
platform primitive); the key's shape does not depend on it.  `user = none`
models an absent `req.user`; `some none` a user object without an id. -/
def defaultCacheKey (hash : String → String) (includeAuth : Bool)
    (user : Option (Option String)) (method path : String)
    (query : List (String × String)) : String :=
  let queryString := String.intercalate "&"
    (((query.map Prod.fst).insertionSort (· ≤ ·)).map fun k =>
      k ++ "=" ++ ((query.lookup k).getD ""))
  let parts := [method, path]
  let parts := if queryString ≠ "" then parts ++ [hash queryString] else parts
  let parts :=
    match user with
    | some (some id) =>
        if includeAuth ∧ id ≠ "" then parts ++ ["user:" ++ id] else parts
    | _ => parts
  String.intercalate ":" parts

structure GetOutcome where
  xCache : String
  body : Json
  st : RState

/-- The auto-cache GET path of `cacheMiddleware` (strategy `auto`, a GET
request passing the condition, handler responding 2xx with `handlerBody`):
look up the derived key; on a non-null cached value reply with
`X-Cache: HIT` and the cached body; otherwise set `X-Cache: MISS`, run the
handler, and store its response via `set` (whose failure is swallowed).
`CacheService.get` resolves on every input — its internal `catch` turns
store errors into `null` — so the middleware's `X-Cache: ERROR` branch,
which requires `await req.cache.get` to reject, is not reachable from a
store failure. -/
def autoCacheGet (c : CacheService) (st : RState) (cacheKey : String)
    (ttl : Nat) (tags : List String) (handlerBody : Json) : GetOutcome :=
  let cached := c.get st cacheKey none
  if jsIsNull cached = false then
    { xCache := "HIT", body := cached.getD .null, st := st }
  else
    { xCache := "MISS", body := handlerBody,
      st := (c.set st cacheKey handlerBody (some ttl) tags).2 }

/-! ### Association-list lemmas -/

theorem alookup_aremove (l : List (String × RVal × Option Nat))
    (key q : String) :
    alookup (aremove l key) q = if q = key then none else alookup l q := by
  induction l with
  | nil => simp [aremove, alookup]
  | cons e rest ih =>
      obtain ⟨k, v, t⟩ := e
      by_cases h : k = key
      · subst h
        simp only [aremove, if_pos rfl, ih, alookup]
        by_cases hq : q = k
        · subst hq
          simpa using ih
        · simp [ih, hq, Ne.symm hq]
      · simp only [aremove, if_neg h, alookup]
        by_cases hq : k = q
        · subst hq
          simp [Ne.symm h, h]
        · simp [hq, ih]

theorem alookup_aset_self (l : List (String × RVal × Option Nat))
    (k : String) (v : RVal) (t : Option Nat) :
    alookup (aset l k v t) k = some (v, t) := by
  simp [aset, alookup]

theorem alookup_aset_ne (l : List (String × RVal × Option Nat))
    (k : String) (v : RVal) (t : Option Nat) (q : String) (h : q ≠ k) :
    alookup (aset l k v t) q = alookup l q := by
  simp [aset, alookup, Ne.symm h, alookup_aremove, h]

/-! ### `set` / `get` round-trip -/

theorem pSADD_preserves_str (st : RState) (k m q : String) (d : String)
    (t : Option Nat) (h : alookup st.entries q = some (.str d, t)) :
    alookup (pSADD st k m).entries q = some (.str d, t) := by
  by_cases hk : k = q
  · subst hk
    simp only [pSADD, h]
  · simp only [pSADD]
    cases hl : alookup st.entries k with
    | none => simpa [alookup_aset_ne _ _ _ _ _ (Ne.symm hk)] using h
    | some p =>
        obtain ⟨pv, pt⟩ := p
        cases pv with
        | str s => simpa using h
        | rset ms => simpa [alookup_aset_ne _ _ _ _ _ (Ne.symm hk)] using h

theorem pEXPIRE_preserves_exact (st : RState) (k q : String) (v0 : RVal)
    (e : Nat) (h : alookup st.entries q = some (v0, some e)) :
    alookup (pEXPIRE st k e).entries q = some (v0, some e) := by
  by_cases hk : k = q
  · subst hk
    simp only [pEXPIRE, h]
    simpa using alookup_aset_self st.entries k v0 (some e)
  · simp only [pEXPIRE]
    cases hl : alookup st.entries k with
    | none => simpa using h
    | some p => simpa [alookup_aset_ne _ _ _ _ _ (Ne.symm hk)] using h

theorem tagFold_preserves_str (c : CacheService) (expiry : Nat)
    (fullKey : String) (tags : List String) (st : RState) (q : String)
    (d : String) (h : alookup st.entries q = some (.str d, some expiry)) :
    alookup ((tags.foldl (fun acc tag =>
      pEXPIRE (pSADD acc (c.generateKey ("tag:" ++ tag) none) fullKey)
        (c.generateKey ("tag:" ++ tag) none) expiry) st).entries) q =
      some (.str d, some expiry) := by
  induction tags generalizing st with
  | nil => simpa using h
  | cons tag rest ih =>
      simp only [List.foldl_cons]
      exact ih _ (pEXPIRE_preserves_exact _ _ _ _ _
        (pSADD_preserves_str _ _ _ _ _ _ h))

theorem pSADD_down (st : RState) (k m : String) : (pSADD st k m).down = st.down := by
  simp only [pSADD]
  cases alookup st.entries k with
  | none => rfl
  | some p =>
      obtain ⟨pv, pt⟩ := p
      cases pv <;> rfl

theorem pEXPIRE_down (st : RState) (k : String) (e : Nat) :
    (pEXPIRE st k e).down = st.down := by
  simp only [pEXPIRE]
  cases alookup st.entries k with
  | none => rfl
  | some p => rfl

theorem tagFold_down (c : CacheService) (expiry : Nat) (fullKey : String)
    (tags : List String) (st : RState) :
    ((tags.foldl (fun acc tag =>
      pEXPIRE (pSADD acc (c.generateKey ("tag:" ++ tag) none) fullKey)
        (c.generateKey ("tag:" ++ tag) none) expiry) st)).down = st.down := by
  induction tags generalizing st with
  | nil => rfl
  | cons tag rest ih =>
      simp only [List.foldl_cons]
      rw [ih, pEXPIRE_down, pSADD_down]

/-- What `set` leaves under the entry's own key. -/
theorem set_lookup (c : CacheService) (st : RState) (k : String) (v : Json)
    (ttl : Option Nat) (tags : List String) (h : st.down = false) :
    alookup ((c.set st k v ttl tags).2).entries (c.generateKey k none) =
      some (.str (compress (jsonStringify v)), some (c.effTTL ttl)) := by
  simp only [CacheService.set, h, Bool.false_eq_true, if_false]
  exact tagFold_preserves_str _ _ _ _ _ _ _
    (by simpa [pSETEX] using alookup_aset_self st.entries _ _ _)

theorem set_down (c : CacheService) (st : RState) (k : String) (v : Json)
    (ttl : Option Nat) (tags : List String) (h : st.down = false) :
    ((c.set st k v ttl tags).2).down = false := by
  simp only [CacheService.set, h, Bool.false_eq_true, if_false]
  rw [tagFold_down]
  simpa [pSETEX] using h

theorem string_ne_empty_of_data (s : String) (h : s.data ≠ []) : s ≠ "" := by
  intro hc
  subst hc
  exact h rfl

theorem compress_jsonStringify_ne_empty (v : Json) :
    compress (jsonStringify v) ≠ "" := by
  apply string_ne_empty_of_data
  simp only [compress]
  split
  · simp only [String.data_append]
    intro hc
    have := congrArg List.length hc
    simp [compressedMarker] at this
  · obtain ⟨c, cs, hc, _⟩ := jsonStr_head v
    simp only [jsonStringify]
    rw [hc]
    simp

/-- The heart of claim C1: `get` immediately after `set` recovers the
value (through compression when it applies). -/
theorem get_after_set (c : CacheService) (st : RState) (k : String)
    (v : Json) (ttl : Option Nat) (tags : List String) (h : st.down = false) :
    c.get ((c.set st k v ttl tags).2) k none = some v := by
  simp only [CacheService.get, rGET, set_down c st k v ttl tags h,
    Bool.false_eq_true, if_false, set_lookup c st k v ttl tags h]
  rw [if_neg (compress_jsonStringify_ne_empty v)]
  rw [show decompress (compress (jsonStringify v)) = jsonStringify v from
    decompress_compress _ (by
      rw [show (jsonStringify v).data = jsonStr v from rfl]
      exact jsonStr_no_marker v)]
  exact jsonParse_jsonStringify v

/-! ### Claim theorems -/

/-- C1: for every JSON-serializable value `v`, key `k` and TTL `t ≥ 1`,
`set(k, v, t)` followed immediately by `get(k)` returns a value
structurally equal to `v`; the entry is stored under the namespaced key
with expiry `t`, and when the serialization exceeds 1024 bytes the stored
payload carries the `compressed:` marker, which `get` detects and
reverses. -/
theorem C1_set_get_roundtrip (c : CacheService) (st : RState) (k : String)
    (v : Json) (t : Nat) (tags : List String)
    (h1 : 1 ≤ t) (h2 : st.down = false) :
    (c.set st k v (some t) tags).1 = true ∧
    c.get ((c.set st k v (some t) tags).2) k none = some v ∧
    alookup ((c.set st k v (some t) tags).2).entries (c.generateKey k none) =
      some (.str (compress (jsonStringify v)), some t) ∧
    (1024 < (jsonStringify v).length →
      hasPre compressedMarker.data (compress (jsonStringify v)).data = true) := by
  have hefft : c.effTTL (some t) = t := by
    simp only [CacheService.effTTL]
    rw [if_neg (by omega)]
  refine ⟨?_, get_after_set c st k v (some t) tags h2, ?_, ?_⟩
  · simp [CacheService.set, h2]
  · rw [set_lookup c st k v (some t) tags h2, hefft]
  · intro hlong
    exact compress_long_marked _ (by
      simpa [compressionThreshold] using hlong)

theorem C1_set_get_roundtrip_witness :
    CacheService.get ⟨"app", 3600⟩
      ((CacheService.set ⟨"app", 3600⟩ ⟨[], false⟩ "user:1" (Json.num 42)
        (some 60) []).2) "user:1" none = some (Json.num 42) :=
  (C1_set_get_roundtrip ⟨"app", 3600⟩ ⟨[], false⟩ "user:1" (Json.num 42) 60 []
    (by decide) rfl).2.1

/-- C9: `decompress` is a left inverse of `compress` on every string that
does not start with the literal `compressed:` marker; `compress` leaves
strings of length at most 1024 unchanged; and no `JSON.stringify` output
starts with the marker. -/
theorem C9_compress_roundtrip (s : String) (v : Json)
    (h : hasPre compressedMarker.data s.data = false) :
    decompress (compress s) = s ∧
    (s.length ≤ 1024 → compress s = s) ∧
    hasPre compressedMarker.data (jsonStringify v).data = false := by
  refine ⟨decompress_compress s h, ?_, ?_⟩
  · intro hlen
    exact compress_short s (by simpa [compressionThreshold] using hlen)
  · exact jsonStr_no_marker v

theorem C9_compress_roundtrip_witness :
    decompress (compress "hello") = "hello" ∧ compress "hello" = "hello" :=
  ⟨(C9_compress_roundtrip "hello" Json.null (by decide)).1,
    (C9_compress_roundtrip "hello" Json.null (by decide)).2.1 (by decide)⟩

theorem get_down (c : CacheService) (st : RState) (k : String)
    (h : st.down = true) : c.get st k none = none := by
  simp [CacheService.get, rGET, h]

/-- C4: when the cache layer is broken (every store command fails),
`getOrSet` falls back to the fetcher, returns its value, invokes it once,
and leaves the store unchanged (nothing is cached); and a failing fetcher's
error propagates to the caller instead of being swallowed (the `catch`
re-invokes the fetcher, whose failure is returned). -/
theorem C4_getOrSet_error_paths (c : CacheService) (st : RState)
    (k : String) (v : Json) (e : String) (ttl : Option Nat)
    (tags : List String) (h : st.down = true) :
    c.getOrSet st k (.ok v) ttl tags = (.ok v, st, 1) ∧
    c.getOrSet st k (.error e) ttl tags = (.error e, st, 2) := by
  have hget : c.get st k none = none := get_down c st k h
  constructor
  · simp [CacheService.getOrSet, hget, jsIsNull, CacheService.set, h]
  · simp [CacheService.getOrSet, hget, jsIsNull]

theorem C4_getOrSet_error_paths_witness :
    CacheService.getOrSet ⟨"app", 3600⟩ ⟨[], true⟩ "k" (.ok (Json.num 1))
      (some 60) [] = (.ok (Json.num 1), ⟨[], true⟩, 1) ∧
    CacheService.getOrSet ⟨"app", 3600⟩ ⟨[], true⟩ "k" (.error "boom")
      (some 60) [] = (.error "boom", ⟨[], true⟩, 2) :=
  C4_getOrSet_error_paths ⟨"app", 3600⟩ ⟨[], true⟩ "k" (Json.num 1) "boom"
    (some 60) [] rfl

/-- C6 (counterexample): with the store down, the auto strategy's GET flow
reports `X-Cache: MISS`, not `ERROR`: `CacheService.get` swallows the
store failure and returns `null`, so the middleware's lookup never
rejects and its `ERROR` branch is not taken. -/
theorem C6_error_header_cex :
    (autoCacheGet ⟨"app", 3600⟩ ⟨[], true⟩ "GET:/users" 300 []
      (Json.num 1)).xCache = "MISS" ∧
    ¬(autoCacheGet ⟨"app", 3600⟩ ⟨[], true⟩ "GET:/users" 300 []
      (Json.num 1)).xCache = "ERROR" := by decide

/-- C6 (amended): for every GET request whose cache lookup hits a failing
store, the middleware sets `X-Cache: MISS` (the service converts the store
error to a miss), serves the handler's body, and does not cache the
response (the store write fails silently too). -/
theorem C6_store_error_is_miss (c : CacheService) (st : RState)
    (key : String) (ttl : Nat) (tags : List String) (body : Json)
    (h : st.down = true) :
    autoCacheGet c st key ttl tags body =
      { xCache := "MISS", body := body, st := st } := by
  have hget : c.get st key none = none := get_down c st key h
  simp [autoCacheGet, hget, jsIsNull, CacheService.set, h]

theorem C6_store_error_is_miss_witness :
    autoCacheGet ⟨"app", 3600⟩ ⟨[], true⟩ "GET:/users" 300 [] (Json.num 1) =
      { xCache := "MISS", body := Json.num 1, st := ⟨[], true⟩ } :=
  C6_store_error_is_miss ⟨"app", 3600⟩ ⟨[], true⟩ "GET:/users" 300 []
    (Json.num 1) rfl

/-- C10: in the default cache-key generator, when `includeAuth` is enabled
but the request carries no authenticated user id (no user object, a user
without an id, or an empty — falsy — id), the user segment is omitted: the
derived key coincides with the key of an unauthenticated request with the
same method, path and query, and with the `includeAuth`-disabled key, so
such requests share one cache entry. -/
theorem C10_includeAuth_without_id (hash : String → String)
    (method path : String) (query : List (String × String)) :
    defaultCacheKey hash true none method path query =
      defaultCacheKey hash false none method path query ∧
    defaultCacheKey hash true (some none) method path query =
      defaultCacheKey hash true none method path query ∧
    defaultCacheKey hash true (some (some "")) method path query =
      defaultCacheKey hash true none method path query := by
  exact ⟨rfl, rfl, rfl⟩

/-! ### C5: repeated `getOrSet` -/

/-- `n` sequential `getOrSet` calls with the same arguments; returns the
final state and the total number of fetcher invocations. -/
def getOrSetCalls (c : CacheService) (k : String)
    (fetcher : Except String Json) (ttl : Option Nat) (tags : List String) :
    RState → Nat → RState × Nat
  | st, 0 => (st, 0)
  | st, n + 1 =>
      let r := c.getOrSet st k fetcher ttl tags
      let rest := getOrSetCalls c k fetcher ttl tags r.2.1 n
      (rest.1, r.2.2 + rest.2)

theorem jsIsNull_some_ne (v : Json) (h : v ≠ .null) :
    jsIsNull (some v) = false := by
  cases v with
  | null => exact absurd rfl h
  | bool b => rfl
  | num n => rfl
  | str s => rfl
  | arr xs => rfl
  | obj kvs => rfl

theorem getOrSet_hit (c : CacheService) (st : RState) (k : String)
    (f : Except String Json) (ttl : Option Nat) (tags : List String)
    (h : jsIsNull (c.get st k none) = false) :
    c.getOrSet st k f ttl tags = (.ok ((c.get st k none).getD .null), st, 0) := by
  simp [CacheService.getOrSet, h]

theorem getOrSetCalls_hit (c : CacheService) (st : RState) (k : String)
    (f : Except String Json) (ttl : Option Nat) (tags : List String)
    (n : Nat) (h : jsIsNull (c.get st k none) = false) :
    getOrSetCalls c k f ttl tags st n = (st, 0) := by
  induction n with
  | zero => rfl
  | succ m ih =>
      simp only [getOrSetCalls, getOrSet_hit c st k f ttl tags h, ih]

/-- C5 (counterexample): a fetcher returning JSON `null` is re-invoked on
every call — a stored `null` is indistinguishable from a miss — so across
two sequential calls the fetcher runs twice, not once. -/
theorem C5_null_fetcher_cex :
    (getOrSetCalls ⟨"app", 3600⟩ "k" (.ok .null) (some 60) []
      ⟨[], false⟩ 2).2 = 2 ∧ (2 : Nat) ≠ 1 := by
  have hmiss : jsIsNull (CacheService.get ⟨"app", 3600⟩ ⟨[], false⟩ "k" none) =
      true := by decide
  have hfirst : CacheService.getOrSet ⟨"app", 3600⟩ ⟨[], false⟩ "k"
      (.ok .null) (some 60) [] =
      (.ok .null,
        (CacheService.set ⟨"app", 3600⟩ ⟨[], false⟩ "k" .null (some 60) []).2,
        1) := by
    simp [CacheService.getOrSet, hmiss]
  have hget1 : CacheService.get ⟨"app", 3600⟩
      ((CacheService.set ⟨"app", 3600⟩ ⟨[], false⟩ "k" .null (some 60) []).2)
      "k" none = some .null :=
    get_after_set ⟨"app", 3600⟩ ⟨[], false⟩ "k" .null (some 60) [] rfl
  have hsecond : CacheService.getOrSet ⟨"app", 3600⟩
      ((CacheService.set ⟨"app", 3600⟩ ⟨[], false⟩ "k" .null (some 60) []).2)
      "k" (.ok .null) (some 60) [] =
      (.ok .null,
        (CacheService.set ⟨"app", 3600⟩
          ((CacheService.set ⟨"app", 3600⟩ ⟨[], false⟩ "k" .null
            (some 60) []).2) "k" .null (some 60) []).2,
        1) := by
    simp [CacheService.getOrSet, hget1, jsIsNull]
  refine ⟨?_, by decide⟩
  simp only [getOrSetCalls, hfirst, hsecond]

/-- C5 (amended): for a fetcher whose value is not JSON `null`, starting
from a state with no entry under the key and a working store, the fetcher
runs exactly once across `N ≥ 1` sequential `getOrSet` calls: the first
call fetches and stores, each later call is served from the cache. -/
theorem C5_fetch_once (c : CacheService) (st : RState) (k : String)
    (v : Json) (ttl : Option Nat) (tags : List String) (N : Nat)
    (h1 : st.down = false) (h2 : jsIsNull (c.get st k none) = true)
    (h3 : v ≠ Json.null) (h4 : 1 ≤ N) :
    (getOrSetCalls c k (.ok v) ttl tags st N).2 = 1 := by
  obtain ⟨n, rfl⟩ : ∃ n, N = n + 1 := ⟨N - 1, by omega⟩
  have hfirst : c.getOrSet st k (.ok v) ttl tags =
      (.ok v, (c.set st k v ttl tags).2, 1) := by
    simp [CacheService.getOrSet, h2]
  have hhit : jsIsNull (c.get ((c.set st k v ttl tags).2) k none) = false := by
    rw [get_after_set c st k v ttl tags h1]
    exact jsIsNull_some_ne v h3
  simp only [getOrSetCalls, hfirst,
    getOrSetCalls_hit c _ k (.ok v) ttl tags n hhit]

theorem C5_fetch_once_witness :
    (getOrSetCalls ⟨"app", 3600⟩ "k" (.ok (Json.num 7)) (some 60) []
      ⟨[], false⟩ 3).2 = 1 :=
  C5_fetch_once ⟨"app", 3600⟩ ⟨[], false⟩ "k" (Json.num 7) (some 60) [] 3
    rfl (by decide) (fun h => Json.noConfusion h) (by decide)

/-! ### C3: tag-set expiry -/

theorem string_data_inj (a b : String) (h : a.data = b.data) : a = b := by
  cases a
  cases b
  exact congrArg String.mk h

theorem string_append_left_cancel (x a b : String) (h : x ++ a = x ++ b) :
    a = b := by
  apply string_data_inj
  have hd := congrArg String.data h
  simp only [String.data_append] at hd
  exact List.append_cancel_left hd

theorem generateKey_tag_inj (c : CacheService) (a b : String)
    (h : c.generateKey ("tag:" ++ a) none =
      c.generateKey ("tag:" ++ b) none) : a = b := by
  simp only [CacheService.generateKey, Option.getD] at h
  have h1 : ("tag:" ++ a : String) = "tag:" ++ b :=
    string_append_left_cancel (c.ns ++ ":") _ _ (by
      simpa [String.append_assoc] using h)
  exact string_append_left_cancel "tag:" a b h1

theorem pSADD_exists (st : RState) (k m : String) :
    (alookup (pSADD st k m).entries k).isSome = true := by
  simp only [pSADD]
  cases hl : alookup st.entries k with
  | none => simp [alookup_aset_self]
  | some p =>
      obtain ⟨pv, pt⟩ := p
      cases pv with
      | str s => simp [hl]
      | rset ms => simp [alookup_aset_self]

theorem pSADD_lookup_other (st : RState) (k m q : String) (h : k ≠ q) :
    alookup (pSADD st k m).entries q = alookup st.entries q := by
  simp only [pSADD]
  cases alookup st.entries k with
  | none => simp [alookup_aset_ne _ _ _ _ _ (Ne.symm h)]
  | some p =>
      obtain ⟨pv, pt⟩ := p
      cases pv with
      | str s => rfl
      | rset ms => simp [alookup_aset_ne _ _ _ _ _ (Ne.symm h)]

theorem pEXPIRE_lookup_other (st : RState) (k : String) (e : Nat)
    (q : String) (h : k ≠ q) :
    alookup (pEXPIRE st k e).entries q = alookup st.entries q := by
  simp only [pEXPIRE]
  cases alookup st.entries k with
  | none => rfl
  | some p => simp [alookup_aset_ne _ _ _ _ _ (Ne.symm h)]

theorem pEXPIRE_ttl_self (st : RState) (k : String) (e : Nat)
    (h : (alookup st.entries k).isSome = true) :
    ttlOf (pEXPIRE st k e) k = (e : Int) := by
  simp only [pEXPIRE]
  cases hl : alookup st.entries k with
  | none => simp [hl] at h
  | some p => simp [ttlOf, alookup_aset_self]

theorem tagFold_lookup_other (c : CacheService) (expiry : Nat)
    (fullKey : String) (rest : List String) (st : RState) (q : String)
    (h : ∀ t' ∈ rest, c.generateKey ("tag:" ++ t') none ≠ q) :
    alookup ((rest.foldl (fun acc tag =>
      pEXPIRE (pSADD acc (c.generateKey ("tag:" ++ tag) none) fullKey)
        (c.generateKey ("tag:" ++ tag) none) expiry) st).entries) q =
      alookup st.entries q := by
  induction rest generalizing st with
  | nil => rfl
  | cons t' rest' ih =>
      simp only [List.foldl_cons]
      rw [ih _ (fun x hx => h x (by simp [hx])),
        pEXPIRE_lookup_other _ _ _ _ (h t' (by simp)),
        pSADD_lookup_other _ _ _ _ (h t' (by simp))]

theorem ttlOf_congr (st1 st2 : RState) (q : String)
    (h : alookup st1.entries q = alookup st2.entries q) :
    ttlOf st1 q = ttlOf st2 q := by
  simp [ttlOf, h]

theorem tagFold_ttl (c : CacheService) (expiry : Nat) (fullKey : String)
    (tags : List String) (st : RState) (tag : String) (h : tag ∈ tags) :
    ttlOf ((tags.foldl (fun acc tg =>
      pEXPIRE (pSADD acc (c.generateKey ("tag:" ++ tg) none) fullKey)
        (c.generateKey ("tag:" ++ tg) none) expiry) st)) 
      (c.generateKey ("tag:" ++ tag) none) = (expiry : Int) := by
  induction tags generalizing st with
  | nil => exact absurd h (by simp)
  | cons t' rest ih =>
      by_cases hmem : tag ∈ rest
      · simp only [List.foldl_cons]
        exact ih _ hmem
      · have heq : tag = t' := by
          rcases List.mem_cons.mp h with h' | h'
          · exact h'
          · exact absurd h' hmem
        subst heq
        simp only [List.foldl_cons]
        have hkeys : ∀ t2 ∈ rest,
            c.generateKey ("tag:" ++ t2) none ≠
              c.generateKey ("tag:" ++ tag) none := by
          intro t2 ht2 hc
          exact hmem (by rw [← generateKey_tag_inj c t2 tag hc]; exact ht2)
        refine Eq.trans (ttlOf_congr _ _ _
          (tagFold_lookup_other c expiry fullKey rest _ _ hkeys)) ?_
        exact pEXPIRE_ttl_self _ _ _ (pSADD_exists st _ fullKey)

theorem set_down_general (c : CacheService) (st : RState) (k : String)
    (v : Json) (ttl : Option Nat) (tags : List String) :
    ((c.set st k v ttl tags).2).down = st.down := by
  by_cases hd : st.down
  · simp [CacheService.set, hd]
  · rw [set_down c st k v ttl tags (by simpa using hd)]
    simp [hd]

/-- `set` touches only the entry's own key and the tag-set keys. -/
theorem set_preserves_other (c : CacheService) (st : RState) (k : String)
    (v : Json) (ttl : Option Nat) (tags : List String) (q : String)
    (hq1 : q ≠ c.generateKey k none)
    (hq2 : ∀ t ∈ tags, q ≠ c.generateKey ("tag:" ++ t) none) :
    alookup ((c.set st k v ttl tags).2).entries q = alookup st.entries q := by
  by_cases hd : st.down
  · simp [CacheService.set, hd]
  · simp only [CacheService.set, hd, Bool.false_eq_true, if_false]
    rw [tagFold_lookup_other c _ _ tags _ q
      (fun t ht => Ne.symm (hq2 t ht))]
    simpa [pSETEX] using
      alookup_aset_ne st.entries (c.generateKey k none) _ _ q hq1

/-- C3 (amended): every `set` with tags refreshes each named tag set's
expiry to exactly the entry's effective TTL — which equals the entry's
requested TTL whenever that is at least 1. -/
theorem C3_tag_expiry (c : CacheService) (st : RState) (k : String)
    (v : Json) (ttl : Option Nat) (tags : List String) (tag : String)
    (h1 : tag ∈ tags) (h2 : st.down = false) :
    ttlOf ((c.set st k v ttl tags).2) (c.generateKey ("tag:" ++ tag) none) =
      ((c.effTTL ttl : Nat) : Int) ∧
    (∀ t, ttl = some t → 1 ≤ t → c.effTTL ttl = t) := by
  constructor
  · simp only [CacheService.set, h2, Bool.false_eq_true, if_false]
    exact tagFold_ttl c _ _ tags _ tag h1
  · intro t ht hge
    subst ht
    simp only [CacheService.effTTL]
    rw [if_neg (by omega)]

theorem C3_tag_expiry_witness :
    ttlOf ((CacheService.set ⟨"app", 3600⟩ ⟨[], false⟩ "k" (Json.num 1)
      (some 60) ["t"]).2)
      (CacheService.generateKey ⟨"app", 3600⟩ ("tag:" ++ "t") none) =
      ((CacheService.effTTL ⟨"app", 3600⟩ (some 60) : Nat) : Int) :=
  (C3_tag_expiry ⟨"app", 3600⟩ ⟨[], false⟩ "k" (Json.num 1) (some 60) ["t"]
    "t" (by decide) rfl).1

/-- C3 (counterexample): a later `set` with a shorter TTL (10s) on the
same tag overwrites the tag set's expiry, shortening it below the
remaining lifetime (100s) of its longest-lived member. -/
theorem C3_shorter_ttl_cex :
    ttlOf ((CacheService.set ⟨"app", 3600⟩
        ((CacheService.set ⟨"app", 3600⟩ ⟨[], false⟩ "k1" (Json.num 1)
          (some 100) ["t"]).2) "k2" (Json.num 2) (some 10) ["t"]).2)
      "app:tag:t" = 10 ∧
    ttlOf ((CacheService.set ⟨"app", 3600⟩
        ((CacheService.set ⟨"app", 3600⟩ ⟨[], false⟩ "k1" (Json.num 1)
          (some 100) ["t"]).2) "k2" (Json.num 2) (some 10) ["t"]).2)
      "app:k1" = 100 ∧
    (10 : Int) < 100 := by
  have hdown1 : ((CacheService.set ⟨"app", 3600⟩ ⟨[], false⟩ "k1"
      (Json.num 1) (some 100) ["t"]).2).down = false := by
    rw [set_down_general]
  refine ⟨?_, ?_, by decide⟩
  · have h := (C3_tag_expiry ⟨"app", 3600⟩ _ "k2" (Json.num 2) (some 10)
      ["t"] "t" (by decide) hdown1).1
    rw [show CacheService.generateKey ⟨"app", 3600⟩ ("tag:" ++ "t") none =
      "app:tag:t" from rfl] at h
    rw [h]
    rfl
  · rw [ttlOf_congr _ _ _ (set_preserves_other ⟨"app", 3600⟩ _ "k2"
      (Json.num 2) (some 10) ["t"] "app:k1" (by decide) (by decide))]
    have h := set_lookup ⟨"app", 3600⟩ ⟨[], false⟩ "k1" (Json.num 1)
      (some 100) ["t"] rfl
    rw [show CacheService.generateKey ⟨"app", 3600⟩ "k1" none = "app:k1"
      from rfl] at h
    simp [ttlOf, h]
    rfl

/-! ### C2: tag invalidation -/

theorem rSMEMBERS_ok_down (st : RState) (k : String) (x : List String)
    (h : rSMEMBERS st k = .ok x) : st.down = false := by
  by_cases hd : st.down
  · simp [rSMEMBERS, hd] at h
  · simpa using hd

theorem rSMEMBERS_ok_nil_pDEL (st : RState) (k m : String)
    (h : rSMEMBERS st k = .ok []) : rSMEMBERS (pDEL st m).1 k = .ok [] := by
  have hd := rSMEMBERS_ok_down st k [] h
  simp only [rSMEMBERS, pDEL, hd, Bool.false_eq_true, if_false] at h ⊢
  rw [alookup_aremove]
  by_cases hk : k = m
  · simp [hk]
  · rw [if_neg hk]
    exact h

theorem rSMEMBERS_ok_nil_foldDel (ms : List String) (st : RState)
    (k : String) (h : rSMEMBERS st k = .ok []) :
    rSMEMBERS ((ms.foldl (fun acc m => (pDEL acc m).1) st)) k = .ok [] := by
  induction ms generalizing st with
  | nil => exact h
  | cons m rest ih =>
      simp only [List.foldl_cons]
      exact ih _ (rSMEMBERS_ok_nil_pDEL st k m h)

theorem invalidateLoop_preserves_ok_nil (c : CacheService)
    (tags : List String) : ∀ (st : RState) (acc : Nat) (k : String),
    rSMEMBERS st k = .ok [] →
    rSMEMBERS (invalidateLoop c st tags acc).2 k = .ok [] := by
  induction tags with
  | nil => intro st acc k h; exact h
  | cons tag rest ih =>
      intro st acc k h
      simp only [invalidateLoop]
      cases hs : rSMEMBERS st (c.generateKey ("tag:" ++ tag) none) with
      | error e => exact h
      | ok keys =>
          by_cases hk : keys.length > 0
          · simp only [hk, reduceIte]
            exact ih _ _ _ (rSMEMBERS_ok_nil_pDEL _ _ _
              (rSMEMBERS_ok_nil_foldDel keys st k h))
          · simp only [hk, Bool.false_eq_true, reduceIte]
            exact ih _ _ _ h

theorem rSMEMBERS_delete_self (st : RState) (ms : List String) (tk : String)
    (hd : st.down = false) :
    rSMEMBERS ((pDEL ((ms.foldl (fun acc m => (pDEL acc m).1) st)) tk).1) tk =
      .ok [] := by
  have hdown : ((pDEL ((ms.foldl (fun acc m => (pDEL acc m).1) st)) tk).1).down =
      st.down := by
    clear hd
    induction ms generalizing st with
    | nil => rfl
    | cons m rest ih =>
        simp only [List.foldl_cons]
        rw [ih]
        rfl
  simp only [rSMEMBERS]
  rw [hdown, hd]
  simp [pDEL, alookup_aremove]

theorem invalidateLoop_second (c : CacheService) (tags : List String) :
    ∀ (st : RState) (acc : Nat),
    invalidateLoop c (invalidateLoop c st tags acc).2 tags 0 =
      (0, (invalidateLoop c st tags acc).2) := by
  induction tags with
  | nil => intro st acc; rfl
  | cons tag rest ih =>
      intro st acc
      simp only [invalidateLoop]
      cases hs : rSMEMBERS st (c.generateKey ("tag:" ++ tag) none) with
      | error e => simp only [invalidateLoop, hs]
      | ok keys =>
          by_cases hk : keys.length > 0
          · simp only [hk, reduceIte]
            have hnil : rSMEMBERS (invalidateLoop c
                ((pDEL ((keys.foldl (fun acc2 m => (pDEL acc2 m).1) st))
                  (c.generateKey ("tag:" ++ tag) none)).1) rest
                (acc + keys.length)).2
                (c.generateKey ("tag:" ++ tag) none) = .ok [] :=
              invalidateLoop_preserves_ok_nil c rest _ _ _
                (rSMEMBERS_delete_self st keys _
                  (rSMEMBERS_ok_down st _ _ hs))
            simp only [invalidateLoop, hnil]
            simpa using ih _ (acc + keys.length)
          · simp only [hk, Bool.false_eq_true, reduceIte]
            have hknil : keys = [] := by
              cases keys with
              | nil => rfl
              | cons a b => simp at hk
            subst hknil
            have hnil : rSMEMBERS (invalidateLoop c st rest acc).2
                (c.generateKey ("tag:" ++ tag) none) = .ok [] :=
              invalidateLoop_preserves_ok_nil c rest _ _ _ hs
            simp only [invalidateLoop, hnil]
            simpa using ih st acc

theorem invalidateLoop_noop (c : CacheService) (tags : List String) :
    ∀ (st : RState) (acc : Nat),
    (∀ tag ∈ tags,
      rSMEMBERS st (c.generateKey ("tag:" ++ tag) none) = .ok []) →
    invalidateLoop c st tags acc = (acc, st) := by
  induction tags with
  | nil => intro st acc _; rfl
  | cons tag rest ih =>
      intro st acc h
      simp only [invalidateLoop, h tag (by simp)]
      exact ih st acc (fun t ht => h t (by simp [ht]))

theorem pDEL_lookup (st : RState) (k q : String) :
    alookup ((pDEL st k).1).entries q =
      if q = k then none else alookup st.entries q := by
  simp [pDEL, alookup_aremove]

theorem foldl_pDEL_lookup (ms : List String) (st : RState) (q : String) :
    alookup ((ms.foldl (fun acc m => (pDEL acc m).1) st).entries) q =
      if q ∈ ms then none else alookup st.entries q := by
  induction ms generalizing st with
  | nil => simp
  | cons m rest ih =>
      simp only [List.foldl_cons]
      rw [ih]
      simp only [pDEL, alookup_aremove]
      by_cases h1 : q ∈ rest
      · simp [h1]
      · by_cases h2 : q = m
        · simp [h1, h2]
        · simp [h1, h2]

/-- Single-tag invalidation: the reported count is the number of member
keys, every member key and the tag set itself are deleted, and every
other key is untouched. -/
theorem invalidateByTags_single (c : CacheService) (st : RState)
    (t : String) (ms : List String)
    (h1 : rSMEMBERS st (c.generateKey ("tag:" ++ t) none) = .ok ms)
    (h2 : ms ≠ []) :
    (c.invalidateByTags st [t]).1 = ms.length ∧
    (∀ q, alookup ((c.invalidateByTags st [t]).2).entries q =
      if q = c.generateKey ("tag:" ++ t) none ∨ q ∈ ms then none
      else alookup st.entries q) := by
  have hlen : ms.length > 0 := List.length_pos.mpr h2
  constructor
  · simp only [CacheService.invalidateByTags, invalidateLoop, h1, hlen,
      reduceIte]
    simp [invalidateLoop]
  · intro q
    simp only [CacheService.invalidateByTags, invalidateLoop, h1, hlen,
      reduceIte]
    rw [pDEL_lookup, foldl_pDEL_lookup]
    by_cases hq1 : q = c.generateKey ("tag:" ++ t) none
    · simp [hq1]
    · by_cases hq2 : q ∈ ms
      · simp [hq1, hq2]
      · simp [hq1, hq2]

theorem rSMEMBERS_pDEL_ne (st : RState) (x k : String) (h : k ≠ x) :
    rSMEMBERS (pDEL st x).1 k = rSMEMBERS st k := by
  simp only [rSMEMBERS, pDEL]
  rw [alookup_aremove, if_neg h]

theorem rSMEMBERS_foldDel_ne (l : List String) :
    ∀ (st : RState) (k : String), k ∉ l →
    rSMEMBERS ((l.foldl (fun acc m => (pDEL acc m).1) st)) k =
      rSMEMBERS st k := by
  induction l with
  | nil => intro st k _; rfl
  | cons m rest ih =>
      intro st k hk
      simp only [List.foldl_cons]
      rw [ih _ _ (fun hh => hk (by simp [hh])),
        rSMEMBERS_pDEL_ne _ _ _ (fun hh => hk (by simp [hh]))]

/-- Whether a key is among the keys `invalidateByTags` deletes: the tag
set of a tag with members, or a listed member. -/
def delHit (c : CacheService) (ms : String → List String)
    (tags : List String) (q : String) : Bool :=
  tags.any fun t =>
    ((q == c.generateKey ("tag:" ++ t) none) && !(ms t).isEmpty) ||
    (ms t).contains q

/-- The per-tag loop on an arbitrary duplicate-free tag list: when every
tag set is readable (`ms t` its members, `[]` when absent) and no tag set
is itself listed as a member, the count accumulates every tag's member
total and exactly the hit keys are removed. -/
theorem invalidateLoop_general (c : CacheService)
    (ms : String → List String) :
    ∀ (tags : List String), tags.Nodup →
    ∀ (st : RState) (acc : Nat),
    (∀ t ∈ tags, rSMEMBERS st (c.generateKey ("tag:" ++ t) none) =
      .ok (ms t)) →
    (∀ t ∈ tags, ∀ t2 ∈ tags,
      c.generateKey ("tag:" ++ t) none ∉ ms t2) →
    (invalidateLoop c st tags acc).1 =
      acc + (tags.map fun t => (ms t).length).sum ∧
    (∀ q, alookup ((invalidateLoop c st tags acc).2).entries q =
      if delHit c ms tags q = true then none else alookup st.entries q) := by
  intro tags
  induction tags with
  | nil =>
      intro _ st acc _ _
      refine ⟨by simp [invalidateLoop], fun q => ?_⟩
      rw [if_neg (by simp [delHit])]
      rfl
  | cons t rest ih =>
      intro hnd st acc hms hnm
      obtain ⟨hni, hnd2⟩ := List.nodup_cons.mp hnd
      have hs : rSMEMBERS st (c.generateKey ("tag:" ++ t) none) =
        .ok (ms t) := hms t (by simp)
      have hcons : ∀ q, delHit c ms (t :: rest) q =
          ((((q == c.generateKey ("tag:" ++ t) none) && !(ms t).isEmpty) ||
            (ms t).contains q) || delHit c ms rest q) := by
        intro q
        simp [delHit, List.any_cons]
      by_cases hemp : ms t = []
      · have h0 : ¬ (ms t).length > 0 := by simp [hemp]
        obtain ⟨ihc, ihl⟩ := ih hnd2 st acc
          (fun t2 ht2 => hms t2 (by simp [ht2]))
          (fun t2 ht2 t3 ht3 => hnm t2 (by simp [ht2]) t3 (by simp [ht3]))
        constructor
        · simp only [invalidateLoop, hs, h0, reduceIte]
          rw [ihc]
          simp [hemp]
        · intro q
          simp only [invalidateLoop, hs, h0, reduceIte]
          rw [ihl q, hcons q]
          simp [hemp]
      · have h0 : (ms t).length > 0 := by
          cases hmt : ms t with
          | nil => exact absurd hmt hemp
          | cons a b => simp [hmt]
        have hne : (ms t).isEmpty = false := by
          cases hmt : ms t with
          | nil => exact absurd hmt hemp
          | cons a b => rfl
        have hgkne : ∀ t2 ∈ rest,
            c.generateKey ("tag:" ++ t2) none ≠
            c.generateKey ("tag:" ++ t) none := by
          intro t2 ht2 hceq
          have heq : t2 = t := generateKey_tag_inj c t2 t hceq
          exact hni (heq ▸ ht2)
        have hms2 : ∀ t2 ∈ rest,
            rSMEMBERS ((pDEL ((ms t).foldl
              (fun acc2 m => (pDEL acc2 m).1) st)
              (c.generateKey ("tag:" ++ t) none)).1)
              (c.generateKey ("tag:" ++ t2) none) = .ok (ms t2) := by
          intro t2 ht2
          rw [rSMEMBERS_pDEL_ne _ _ _ (hgkne t2 ht2),
            rSMEMBERS_foldDel_ne _ _ _ (hnm t2 (by simp [ht2]) t (by simp))]
          exact hms t2 (by simp [ht2])
        obtain ⟨ihc, ihl⟩ := ih hnd2 _ (acc + (ms t).length) hms2
          (fun t2 ht2 t3 ht3 => hnm t2 (by simp [ht2]) t3 (by simp [ht3]))
        constructor
        · simp only [invalidateLoop, hs, h0, reduceIte]
          rw [ihc]
          simp [Nat.add_assoc]
        · intro q
          simp only [invalidateLoop, hs, h0, reduceIte]
          rw [ihl q]
          have hst2 : alookup ((pDEL ((ms t).foldl
              (fun acc2 m => (pDEL acc2 m).1) st)
              (c.generateKey ("tag:" ++ t) none)).1).entries q =
              if q = c.generateKey ("tag:" ++ t) none ∨ q ∈ ms t then none
              else alookup st.entries q := by
            rw [pDEL_lookup, foldl_pDEL_lookup]
            by_cases h1 : q = c.generateKey ("tag:" ++ t) none
            · simp [h1]
            · by_cases h2 : q ∈ ms t
              · simp [h1, h2]
              · simp [h1, h2]
          rw [hst2, hcons q]
          by_cases hb : delHit c ms rest q = true
          · simp [hb]
          · by_cases h1 : q = c.generateKey ("tag:" ++ t) none
            · simp [hb, h1, hne]
            · by_cases h2 : q ∈ ms t
              · simp [hb, h1, h2]
              · simp [hb, h1, h2]

/-- C2 (amended): on any duplicate-free list of tags whose tag sets are
readable (each holds a member set or is absent) and where no tag set's
key is itself listed as a member, `invalidateByTags` deletes, for each
tag with members, every member key and the tag set itself, leaves every
other key untouched, and returns the total number of member keys read
across all the tag sets (tag-set deletions are not counted, while a
member whose entry already expired is still counted); tags with no
members are no-ops; and an immediate second invalidation of the same
tags removes nothing and returns zero. -/
theorem C2_invalidate_semantics :
    (∀ (c : CacheService) (ms : String → List String) (tags : List String)
      (st : RState), tags.Nodup →
      (∀ t ∈ tags, rSMEMBERS st (c.generateKey ("tag:" ++ t) none) =
        .ok (ms t)) →
      (∀ t ∈ tags, ∀ t2 ∈ tags,
        c.generateKey ("tag:" ++ t) none ∉ ms t2) →
      (c.invalidateByTags st tags).1 =
        (tags.map fun t => (ms t).length).sum ∧
      (∀ q, alookup ((c.invalidateByTags st tags).2).entries q =
        if delHit c ms tags q = true then none
        else alookup st.entries q)) ∧
    (∀ (c : CacheService) (st : RState) (tags : List String),
      (∀ tag ∈ tags,
        rSMEMBERS st (c.generateKey ("tag:" ++ tag) none) = .ok []) →
      c.invalidateByTags st tags = (0, st)) ∧
    (∀ (c : CacheService) (st : RState) (tags : List String),
      c.invalidateByTags ((c.invalidateByTags st tags).2) tags =
        (0, (c.invalidateByTags st tags).2)) := by
  refine ⟨?_, fun c st tags h => invalidateLoop_noop c tags st 0 h,
    fun c st tags => invalidateLoop_second c tags st 0⟩
  intro c ms tags st hnd hms hnm
  obtain ⟨h1, h2⟩ := invalidateLoop_general c ms tags hnd st 0 hms hnm
  exact ⟨by simpa [CacheService.invalidateByTags] using h1,
    fun q => by simpa [CacheService.invalidateByTags] using h2 q⟩

theorem C2_invalidate_semantics_witness :
    (CacheService.invalidateByTags ⟨"app", 3600⟩
      ⟨[("app:k1", .str "1", some 60), ("app:k2", .str "2", some 60),
        ("app:tag:A", .rset ["app:k1", "app:k2"], some 60),
        ("app:s", .str "3", some 60),
        ("app:tag:B", .rset ["app:s"], some 60)], false⟩ ["A", "B"]).1 =
      3 ∧
    alookup ((CacheService.invalidateByTags ⟨"app", 3600⟩
      ⟨[("app:k1", .str "1", some 60), ("app:k2", .str "2", some 60),
        ("app:tag:A", .rset ["app:k1", "app:k2"], some 60),
        ("app:s", .str "3", some 60),
        ("app:tag:B", .rset ["app:s"], some 60)], false⟩
      ["A", "B"]).2).entries "app:k1" = none ∧
    alookup ((CacheService.invalidateByTags ⟨"app", 3600⟩
      ⟨[("app:k1", .str "1", some 60), ("app:k2", .str "2", some 60),
        ("app:tag:A", .rset ["app:k1", "app:k2"], some 60),
        ("app:s", .str "3", some 60),
        ("app:tag:B", .rset ["app:s"], some 60)], false⟩
      ["A", "B"]).2).entries "app:s" = none ∧
    alookup ((CacheService.invalidateByTags ⟨"app", 3600⟩
      ⟨[("app:k1", .str "1", some 60), ("app:k2", .str "2", some 60),
        ("app:tag:A", .rset ["app:k1", "app:k2"], some 60),
        ("app:s", .str "3", some 60),
        ("app:tag:B", .rset ["app:s"], some 60)], false⟩
      ["A", "B"]).2).entries "app:tag:A" = none := by
  have h := C2_invalidate_semantics.1 ⟨"app", 3600⟩
    (fun t => if t = "A" then ["app:k1", "app:k2"]
      else if t = "B" then ["app:s"] else [])
    ["A", "B"]
    ⟨[("app:k1", .str "1", some 60), ("app:k2", .str "2", some 60),
      ("app:tag:A", .rset ["app:k1", "app:k2"], some 60),
      ("app:s", .str "3", some 60),
      ("app:tag:B", .rset ["app:s"], some 60)], false⟩
    (by decide)
    (by
      intro t ht
      rcases List.mem_cons.mp ht with rfl | ht2
      · rfl
      · rcases List.mem_cons.mp ht2 with rfl | h3
        · rfl
        · exact absurd h3 (by simp))
    (by decide)
  refine ⟨?_, ?_, ?_, ?_⟩
  · rw [h.1]
    rfl
  · rw [h.2 "app:k1"]
    rfl
  · rw [h.2 "app:s"]
    rfl
  · rw [h.2 "app:tag:A"]
    rfl

/-- The keys of the plain (string-valued) cache entries of a state. -/
def cacheEntryKeys (st : RState) : List String :=
  (st.entries.filter fun e =>
    match e.2.1 with
    | .str _ => true
    | .rset _ => false).map fun e => e.1

/-- How many cache entries present in `pre` are gone in `post`. -/
def removedEntryCount (pre post : RState) : Nat :=
  ((cacheEntryKeys pre).filter fun k => (alookup post.entries k).isNone).length

/-- C2 (counterexample): when a tag set references a key whose entry no
longer exists, `invalidateByTags` still counts it — it reports `1` while
zero cache entries are actually removed. -/
theorem C2_phantom_member_cex :
    (CacheService.invalidateByTags ⟨"app", 3600⟩
      ⟨[("app:tag:t", .rset ["app:k"], some 60)], false⟩ ["t"]).1 = 1 ∧
    removedEntryCount ⟨[("app:tag:t", .rset ["app:k"], some 60)], false⟩
      (CacheService.invalidateByTags ⟨"app", 3600⟩
        ⟨[("app:tag:t", .rset ["app:k"], some 60)], false⟩ ["t"]).2 = 0 ∧
    (1 : Nat) ≠ 0 := by decide

/-! ### C7: namespace isolation -/

theorem hasPre_le (p1 p2 x : List Char) (h1 : hasPre p1 x = true)
    (h2 : hasPre p2 x = true) (hle : p1.length ≤ p2.length) :
    hasPre p1 p2 = true := by
  induction p1 generalizing p2 x with
  | nil => rfl
  | cons a p1' ih =>
      cases p2 with
      | nil => simp at hle
      | cons b p2' =>
          cases x with
          | nil => simp [hasPre] at h1
          | cons cx x' =>
              simp only [hasPre, Bool.and_eq_true, beq_iff_eq] at h1 h2 ⊢
              obtain ⟨rfl, h1'⟩ := h1
              obtain ⟨rfl, h2'⟩ := h2
              exact ⟨rfl, ih _ _ h1' h2' (by simpa using hle)⟩

/-- Two namespaces are independent when neither's `:`-terminated prefix is
a prefix of the other's (rules out `"a"` versus `"a:b"`). -/
def NsIndep (ns1 ns2 : String) : Prop :=
  hasPre (ns1 ++ ":").data (ns2 ++ ":").data = false ∧
  hasPre (ns2 ++ ":").data (ns1 ++ ":").data = false

instance (ns1 ns2 : String) : Decidable (NsIndep ns1 ns2) := by
  unfold NsIndep
  infer_instance

theorem generateKey_eq (c : CacheService) (k : String) :
    c.generateKey k none = c.ns ++ ":" ++ k := rfl

theorem keys_disjoint (c1 c2 : CacheService) (k1 k2 : String)
    (h : NsIndep c1.ns c2.ns) :
    c1.generateKey k1 none ≠ c2.generateKey k2 none := by
  intro hc
  have hd : (c1.ns ++ ":").data ++ k1.data = (c2.ns ++ ":").data ++ k2.data := by
    have hx := congrArg String.data hc
    rw [generateKey_eq, generateKey_eq, String.data_append,
      String.data_append] at hx
    exact hx
  have h1 : hasPre (c1.ns ++ ":").data
      ((c1.ns ++ ":").data ++ k1.data) = true := hasPre_append _ _
  have h2 : hasPre (c2.ns ++ ":").data
      ((c1.ns ++ ":").data ++ k1.data) = true := by
    rw [hd]
    exact hasPre_append _ _
  rcases Nat.le_total ((c1.ns ++ ":").data).length
      ((c2.ns ++ ":").data).length with hle | hle
  · have hcon := hasPre_le _ _ _ h1 h2 hle
    rw [h.1] at hcon
    exact Bool.false_ne_true hcon
  · have hcon := hasPre_le _ _ _ h2 h1 hle
    rw [h.2] at hcon
    exact Bool.false_ne_true hcon

theorem keys_distinct_same_key (c1 c2 : CacheService) (k : String)
    (h : c1.ns ≠ c2.ns) :
    c1.generateKey k none ≠ c2.generateKey k none := by
  intro hc
  have hd : (c1.ns ++ ":").data ++ k.data = (c2.ns ++ ":").data ++ k.data := by
    have hx := congrArg String.data hc
    rw [generateKey_eq, generateKey_eq, String.data_append,
      String.data_append] at hx
    exact hx
  have h2 := List.append_cancel_right hd
  rw [String.data_append, String.data_append] at h2
  exact h (string_data_inj _ _ (List.append_cancel_right h2))

theorem get_congr (c : CacheService) (st1 st2 : RState) (k : String)
    (h1 : st1.down = st2.down)
    (h2 : alookup st1.entries (c.generateKey k none) =
      alookup st2.entries (c.generateKey k none)) :
    c.get st1 k none = c.get st2 k none := by
  simp [CacheService.get, rGET, h1, h2]

theorem pDEL_down (st : RState) (k : String) :
    ((pDEL st k).1).down = st.down := rfl

theorem foldl_pDEL_down (l : List String) : ∀ st : RState,
    ((l.foldl (fun acc m => (pDEL acc m).1) st)).down = st.down := by
  induction l with
  | nil => intro st; rfl
  | cons m rest ih =>
      intro st
      simp only [List.foldl_cons]
      rw [ih]
      rfl

theorem del_down_general (c : CacheService) (st : RState) (k : String)
    (nso : Option String) : ((c.del st k nso).2).down = st.down := by
  by_cases hd : st.down
  · simp [CacheService.del, hd]
  · simp [CacheService.del, hd, pDEL]

theorem del_preserves_other (c : CacheService) (st : RState) (k : String)
    (q : String) (hq : q ≠ c.generateKey k none) :
    alookup ((c.del st k none).2).entries q = alookup st.entries q := by
  by_cases hd : st.down
  · simp [CacheService.del, hd]
  · simp [CacheService.del, hd, pDEL, alookup_aremove, hq]

/-- A key carrying `c1`'s namespace marker can never be a key generated by
a namespace-independent service `c2`. -/
theorem hasPre_ne_other_key (c1 c2 : CacheService) (h : NsIndep c1.ns c2.ns)
    (m : String) (hm : hasPre (c1.ns ++ ":").data m.data = true)
    (q : String) : m ≠ c2.generateKey q none := by
  intro hc
  subst hc
  simp only [generateKey_eq, String.data_append] at hm
  have h2 : hasPre (c2.ns.data ++ ":".data)
      ((c2.ns.data ++ ":".data) ++ q.data) = true := hasPre_append _ _
  have hf1 : hasPre (c1.ns.data ++ ":".data) (c2.ns.data ++ ":".data) =
      false := by simpa only [String.data_append] using h.1
  have hf2 : hasPre (c2.ns.data ++ ":".data) (c1.ns.data ++ ":".data) =
      false := by simpa only [String.data_append] using h.2
  rcases Nat.le_total (c1.ns.data ++ ":".data).length
      (c2.ns.data ++ ":".data).length with hle | hle
  · have hcon := hasPre_le _ _ _ hm h2 hle
    rw [hf1] at hcon
    exact Bool.false_ne_true hcon
  · have hcon := hasPre_le _ _ _ h2 hm hle
    rw [hf2] at hcon
    exact Bool.false_ne_true hcon

/-- A `set` through a namespace-independent service leaves `get` through
the other service unchanged, for any keys and tags. -/
theorem get_after_other_set (c1 c2 : CacheService)
    (h : NsIndep c1.ns c2.ns) (st : RState) (k1 k2 : String) (v : Json)
    (ttl : Option Nat) (tags : List String) :
    c1.get ((c2.set st k2 v ttl tags).2) k1 none = c1.get st k1 none := by
  apply get_congr
  · exact set_down_general c2 st k2 v ttl tags
  · exact set_preserves_other c2 st k2 v ttl tags _
      (keys_disjoint c1 c2 k1 k2 h)
      (fun t _ => keys_disjoint c1 c2 k1 ("tag:" ++ t) h)

/-- A tag-free `set` under the same key through a service with a merely
different namespace is invisible to the other service. -/
theorem get_after_other_set_same_key (c1 c2 : CacheService)
    (h : c1.ns ≠ c2.ns) (st : RState) (k : String) (v : Json)
    (ttl : Option Nat) :
    c1.get ((c2.set st k v ttl []).2) k none = c1.get st k none := by
  apply get_congr
  · exact set_down_general c2 st k v ttl []
  · exact set_preserves_other c2 st k v ttl [] _
      (keys_distinct_same_key c1 c2 k h) (fun t ht => absurd ht (by simp))

theorem get_after_other_del (c1 c2 : CacheService)
    (h : NsIndep c1.ns c2.ns) (st : RState) (k1 k2 : String) :
    c1.get ((c2.del st k2 none).2) k1 none = c1.get st k1 none := by
  apply get_congr
  · exact del_down_general c2 st k2 none
  · exact del_preserves_other c2 st k2 _ (keys_disjoint c1 c2 k1 k2 h)

theorem rSMEMBERS_pDEL_cases (st : RState) (x k : String) (ms : List String)
    (h : rSMEMBERS (pDEL st x).1 k = .ok ms) :
    ms = [] ∨ rSMEMBERS st k = .ok ms := by
  by_cases hd : st.down
  · exfalso
    simp [rSMEMBERS, pDEL, hd] at h
  · simp only [rSMEMBERS, pDEL, hd, Bool.false_eq_true, if_false] at h ⊢
    rw [alookup_aremove] at h
    by_cases hk : k = x
    · rw [if_pos hk] at h
      simp at h
      left
      exact h
    · rw [if_neg hk] at h
      right
      exact h

/-- Every set stored in `st` lists only members under `c`'s namespace
marker — the invariant every store reachable through `c`'s own writes
satisfies, since `set` adds full keys to tag sets. -/
def MembersUnder (c : CacheService) (st : RState) : Prop :=
  ∀ k ms, rSMEMBERS st k = .ok ms →
    ∀ m ∈ ms, hasPre (c.ns ++ ":").data m.data = true

theorem membersUnder_pDEL (c : CacheService) (st : RState) (x : String)
    (h : MembersUnder c st) : MembersUnder c (pDEL st x).1 := by
  intro k ms hms m hm
  rcases rSMEMBERS_pDEL_cases st x k ms hms with hnil | hok
  · subst hnil
    exact absurd hm (by simp)
  · exact h k ms hok m hm

theorem membersUnder_foldDel (c : CacheService) (l : List String) :
    ∀ st : RState, MembersUnder c st →
    MembersUnder c (l.foldl (fun acc m => (pDEL acc m).1) st) := by
  induction l with
  | nil => intro st h; exact h
  | cons m rest ih =>
      intro st h
      simp only [List.foldl_cons]
      exact ih _ (membersUnder_pDEL c st m h)

theorem invalidateLoop_down (c : CacheService) (tags : List String) :
    ∀ (st : RState) (acc : Nat),
    ((invalidateLoop c st tags acc).2).down = st.down := by
  induction tags with
  | nil => intro st acc; rfl
  | cons tag rest ih =>
      intro st acc
      simp only [invalidateLoop]
      cases hs : rSMEMBERS st (c.generateKey ("tag:" ++ tag) none) with
      | error e => rfl
      | ok keys =>
          by_cases hk : keys.length > 0
          · simp only [hk, reduceIte]
            rw [ih, pDEL_down, foldl_pDEL_down]
          · simp only [hk, Bool.false_eq_true, reduceIte]
            exact ih st acc

/-- Under the member-confinement invariant, `invalidateByTags` through
`c1` touches only keys under `c1`'s namespace. -/
theorem invalidateLoop_preserves_other (c1 c2 : CacheService)
    (h : NsIndep c1.ns c2.ns) (tags : List String) :
    ∀ (st : RState) (acc : Nat), MembersUnder c1 st → ∀ q : String,
    alookup ((invalidateLoop c1 st tags acc).2).entries
      (c2.generateKey q none) =
      alookup st.entries (c2.generateKey q none) := by
  induction tags with
  | nil => intro st acc _ q; rfl
  | cons tag rest ih =>
      intro st acc hm q
      simp only [invalidateLoop]
      cases hs : rSMEMBERS st (c1.generateKey ("tag:" ++ tag) none) with
      | error e => rfl
      | ok keys =>
          by_cases hk : keys.length > 0
          · simp only [hk, reduceIte]
            rw [ih _ _ (membersUnder_pDEL _ _ _
              (membersUnder_foldDel c1 keys st hm)) q]
            rw [pDEL_lookup, foldl_pDEL_lookup]
            rw [if_neg (Ne.symm (keys_disjoint c1 c2 ("tag:" ++ tag) q h))]
            rw [if_neg (fun hmem =>
              hasPre_ne_other_key c1 c2 h _ (hm _ _ hs _ hmem) q rfl)]
          · simp only [hk, Bool.false_eq_true, reduceIte]
            exact ih st acc hm q

theorem get_after_other_invalidate (c1 c2 : CacheService)
    (h : NsIndep c1.ns c2.ns) (st : RState) (tags : List String)
    (k : String) (hm : MembersUnder c2 st) :
    c1.get ((c2.invalidateByTags st tags).2) k none = c1.get st k none := by
  apply get_congr
  · exact invalidateLoop_down c2 tags st 0
  · exact invalidateLoop_preserves_other c2 c1 ⟨h.2, h.1⟩ tags st 0 hm k

/-! ### Glob patterns with a literal head (`delPattern` confinement) -/

/-- A character with no special glob meaning. -/
def litChar (ch : Char) : Bool :=
  !(ch == '*' || ch == '?' || ch == '[' || ch == '\\')

def litList (l : List Char) : Bool := l.all litChar

theorem litChar_ne (c : Char) (h : litChar c = true) :
    c ≠ '*' ∧ c ≠ '?' ∧ c ≠ '[' ∧ c ≠ '\\' := by
  simp [litChar] at h
  exact ⟨h.1.1.1, h.1.1.2, h.1.2, h.2⟩

theorem globMatch_nil_lit (c : Char) (hc : litChar c = true)
    (ps : List Char) : globMatch (c :: ps) [] = false := by
  obtain ⟨h1, _, _, _⟩ := litChar_ne c hc
  rw [globMatch.eq_def]
  simp [h1]

theorem globMatch_cons_lit (c d : Char) (hc : litChar c = true)
    (ps cs : List Char) :
    globMatch (c :: ps) (d :: cs) = (c == d && globMatch ps cs) := by
  obtain ⟨h1, h2, h3, h4⟩ := litChar_ne c hc
  rw [globMatch.eq_def]
  simp [h1, h2, h3, h4]

theorem globMatch_star (s : List Char) : globMatch ['*'] s = true := by
  induction s with
  | nil =>
      rw [globMatch.eq_def]
      simp
      rw [globMatch.eq_def]
  | cons c cs ih => rw [globMatch.eq_def]; simp [ih]

/-- A glob pattern opening with literal characters matches exactly the
strings that start with those characters, the rest matching the rest of
the pattern. -/
theorem globMatch_lit_iff (lit : List Char) (hl : litList lit = true) :
    ∀ (p s : List Char),
    globMatch (lit ++ p) s = true ↔
      ∃ r, s = lit ++ r ∧ globMatch p r = true := by
  induction lit with
  | nil => intro p s; simp
  | cons c lit2 ih =>
      intro p s
      have hc : litChar c = true := by
        simp only [litList, List.all_cons, Bool.and_eq_true] at hl
        exact hl.1
      have hl2 : litList lit2 = true := by
        simp only [litList, List.all_cons, Bool.and_eq_true] at hl
        exact hl.2
      cases s with
      | nil =>
          rw [List.cons_append, globMatch_nil_lit c hc]
          simp
      | cons d s2 =>
          rw [List.cons_append, globMatch_cons_lit c d hc]
          constructor
          · intro hband
            simp only [Bool.and_eq_true, beq_iff_eq] at hband
            obtain ⟨r, hs, hgm⟩ := (ih hl2 p s2).mp hband.2
            exact ⟨r, by rw [hband.1, hs, List.cons_append], hgm⟩
          · rintro ⟨r, hs, hgm⟩
            rw [List.cons_append] at hs
            obtain ⟨hd1, hd2⟩ := List.cons.inj hs
            simp only [Bool.and_eq_true, beq_iff_eq]
            exact ⟨hd1.symm, (ih hl2 p s2).mpr ⟨r, hd2, hgm⟩⟩

theorem generateKey_data (c : CacheService) (k : String) :
    (c.generateKey k none).data = (c.ns ++ ":").data ++ k.data := by
  rw [generateKey_eq, String.data_append]

theorem scanKeys_mem (st : RState) (pat q : String) :
    q ∈ scanKeys st pat ↔
      q ∈ st.entries.map (fun e => e.1) ∧
      globMatch pat.data q.data = true := by
  simp [scanKeys, List.mem_filter]

/-- With a glob-free namespace, every key `delPattern` scans carries the
namespace marker. -/
theorem scanKeys_under_ns (c : CacheService) (st : RState) (pat q : String)
    (hl : litList (c.ns ++ ":").data = true)
    (hq : q ∈ scanKeys st (c.generateKey pat none)) :
    hasPre (c.ns ++ ":").data q.data = true := by
  have h := ((scanKeys_mem st _ q).mp hq).2
  rw [generateKey_data] at h
  obtain ⟨r, hr, _⟩ := (globMatch_lit_iff _ hl _ _).mp h
  rw [hr]
  exact hasPre_append _ _

theorem delBatches_eq : ∀ (st : RState) (l : List String),
    delBatches st l =
      (l.length, l.foldl (fun acc k => (pDEL acc k).1) st) := by
  intro st l
  induction st, l using delBatches.induct with
  | case1 st => simp [delBatches]
  | case2 st k ks b s1 ih =>
      rw [delBatches.eq_def]
      simp only []
      rw [ih]
      have h1 : (((k :: ks).take 100).length + ((k :: ks).drop 100).length)
          = (k :: ks).length := by
        rw [← List.length_append, List.take_append_drop]
      have h2 : ((k :: ks).drop 100).foldl (fun acc k => (pDEL acc k).1)
          (((k :: ks).take 100).foldl (fun acc k => (pDEL acc k).1) st)
          = (k :: ks).foldl (fun acc k => (pDEL acc k).1) st := by
        rw [← List.foldl_append, List.take_append_drop]
      rw [h2, h1]

theorem delPattern_count (c : CacheService) (st : RState) (pat : String)
    (hd : st.down = false) :
    (c.delPattern st pat).1 =
      (scanKeys st (c.generateKey pat none)).length := by
  simp only [CacheService.delPattern, hd, Bool.false_eq_true, if_false]
  by_cases hk : (scanKeys st (c.generateKey pat none)).length > 0
  · simp only [hk, reduceIte, delBatches_eq]
  · simp only [hk, Bool.false_eq_true, reduceIte]
    omega

theorem delPattern_lookup (c : CacheService) (st : RState) (pat : String)
    (hd : st.down = false) (q : String) :
    alookup ((c.delPattern st pat).2).entries q =
      if q ∈ scanKeys st (c.generateKey pat none) then none
      else alookup st.entries q := by
  simp only [CacheService.delPattern, hd, Bool.false_eq_true, if_false]
  by_cases hk : (scanKeys st (c.generateKey pat none)).length > 0
  · simp only [hk, reduceIte, delBatches_eq]
    exact foldl_pDEL_lookup _ st q
  · simp only [hk, Bool.false_eq_true, reduceIte]
    have hnil : scanKeys st (c.generateKey pat none) = [] := by
      cases hs : scanKeys st (c.generateKey pat none) with
      | nil => rfl
      | cons a b => rw [hs] at hk; simp at hk
    simp [hnil]

theorem delPattern_down (c : CacheService) (st : RState) (pat : String) :
    ((c.delPattern st pat).2).down = st.down := by
  by_cases hd : st.down
  · simp [CacheService.delPattern, hd]
  · simp only [CacheService.delPattern, hd, Bool.false_eq_true, if_false]
    by_cases hk : (scanKeys st (c.generateKey pat none)).length > 0
    · simp only [hk, reduceIte, delBatches_eq]
      rw [foldl_pDEL_down]
      simpa using hd
    · simp only [hk, Bool.false_eq_true, reduceIte]
      simpa using hd

/-- With a glob-free namespace, `delPattern` through one service never
deletes a namespace-independent service's keys. -/
theorem get_after_other_delPattern (c1 c2 : CacheService)
    (h : NsIndep c1.ns c2.ns) (hl : litList (c2.ns ++ ":").data = true)
    (st : RState) (pat k : String) :
    c1.get ((c2.delPattern st pat).2) k none = c1.get st k none := by
  apply get_congr
  · exact delPattern_down c2 st pat
  · by_cases hd : st.down
    · simp [CacheService.delPattern, hd]
    · rw [delPattern_lookup c2 st pat (by simpa using hd)]
      rw [if_neg (fun hmem => hasPre_ne_other_key c2 c1 ⟨h.2, h.1⟩ _
        (scanKeys_under_ns c2 st pat _ hl hmem) k rfl)]

/-- C7 (counterexample): namespaces `"a"` and `"a:b"` are different
strings, yet the `"a"` service observes a value stored by the `"a:b"`
service (full keys `a:b:x` collide), so different namespaces do
interact. -/
theorem C7_nested_ns_cex :
    CacheService.ns ⟨"a", 3600⟩ ≠ CacheService.ns ⟨"a:b", 3600⟩ ∧
    CacheService.get ⟨"a", 3600⟩
      ((CacheService.set ⟨"a:b", 3600⟩ ⟨[], false⟩ "x" (.str "secret")
        (some 60) []).2) "b:x" none = some (.str "secret") := by
  refine ⟨by decide, ?_⟩
  have hk : CacheService.generateKey ⟨"a", 3600⟩ "b:x" none =
      CacheService.generateKey ⟨"a:b", 3600⟩ "x" none := by decide
  have hg : ∀ st : RState, CacheService.get ⟨"a", 3600⟩ st "b:x" none =
      CacheService.get ⟨"a:b", 3600⟩ st "x" none := by
    intro st
    unfold CacheService.get
    rw [hk]
  rw [hg]
  exact get_after_set ⟨"a:b", 3600⟩ ⟨[], false⟩ "x" (.str "secret")
    (some 60) [] rfl

/-- C7 (amended): namespace isolation.  For merely different namespace
strings, the same key maps to different full keys and a tag-free `set`
under one namespace is invisible to the other; under namespace
independence (neither `ns ++ ":"` a prefix of the other, ruling out the
`"a"` / `"a:b"` collision) `set` with arbitrary keys and tags and `del`
never affect the other service's `get`; `invalidateByTags` is likewise
isolated on stores whose tag sets only list members under the acting
service's namespace, and `delPattern` is isolated when the acting
service's namespace is glob-free. -/
theorem C7_namespace_isolation :
    (∀ (c1 c2 : CacheService) (k : String), c1.ns ≠ c2.ns →
      c1.generateKey k none ≠ c2.generateKey k none) ∧
    (∀ (c1 c2 : CacheService) (st : RState) (k : String) (v : Json)
      (ttl : Option Nat), c1.ns ≠ c2.ns →
      c1.get ((c2.set st k v ttl []).2) k none = c1.get st k none) ∧
    (∀ (c1 c2 : CacheService) (st : RState) (k1 k2 : String) (v : Json)
      (ttl : Option Nat) (tags : List String), NsIndep c1.ns c2.ns →
      c1.get ((c2.set st k2 v ttl tags).2) k1 none = c1.get st k1 none) ∧
    (∀ (c1 c2 : CacheService) (st : RState) (k1 k2 : String),
      NsIndep c1.ns c2.ns →
      c1.get ((c2.del st k2 none).2) k1 none = c1.get st k1 none) ∧
    (∀ (c1 c2 : CacheService) (st : RState) (tags : List String)
      (k : String), NsIndep c1.ns c2.ns → MembersUnder c2 st →
      c1.get ((c2.invalidateByTags st tags).2) k none = c1.get st k none) ∧
    (∀ (c1 c2 : CacheService) (st : RState) (pat k : String),
      NsIndep c1.ns c2.ns → litList (c2.ns ++ ":").data = true →
      c1.get ((c2.delPattern st pat).2) k none = c1.get st k none) :=
  ⟨fun c1 c2 k h => keys_distinct_same_key c1 c2 k h,
   fun c1 c2 st k v ttl h => get_after_other_set_same_key c1 c2 h st k v ttl,
   fun c1 c2 st k1 k2 v ttl tags h =>
     get_after_other_set c1 c2 h st k1 k2 v ttl tags,
   fun c1 c2 st k1 k2 h => get_after_other_del c1 c2 h st k1 k2,
   fun c1 c2 st tags k h hm => get_after_other_invalidate c1 c2 h st tags k hm,
   fun c1 c2 st pat k h hl => get_after_other_delPattern c1 c2 h hl st pat k⟩

theorem C7_namespace_isolation_witness :
    NsIndep "users" "posts" ∧
    CacheService.get ⟨"users", 60⟩
      ((CacheService.set ⟨"posts", 60⟩ ⟨[], false⟩ "1" (.str "p")
        (some 60) ["t"]).2) "1" none =
      CacheService.get ⟨"users", 60⟩ ⟨[], false⟩ "1" none :=
  ⟨by decide, C7_namespace_isolation.2.2.1 ⟨"users", 60⟩ ⟨"posts", 60⟩
    ⟨[], false⟩ "1" "1" (.str "p") (some 60) ["t"] (by decide)⟩

/-! ### C8: `delPattern` -/

/-- The store of the spec's `delPattern` example: two `list:` entries and
one `search:` entry under namespace `app`. -/
def c8Store : RState :=
  ⟨[("app:list:1", .str "1", some 60), ("app:list:2", .str "2", some 60),
    ("app:search:x", .str "3", some 60)], false⟩

theorem c8_glob_match1 :
    globMatch ['a', 'p', 'p', ':', 'l', 'i', 's', 't', ':', '*']
      ['a', 'p', 'p', ':', 'l', 'i', 's', 't', ':', '1'] = true := by
  have h1 : (['a', 'p', 'p', ':', 'l', 'i', 's', 't', ':', '*'] :
      List Char) = ("app:list:" : String).data ++ ['*'] := by decide
  have h2 : (['a', 'p', 'p', ':', 'l', 'i', 's', 't', ':', '1'] :
      List Char) = ("app:list:" : String).data ++ ['1'] := by decide
  rw [h1, h2]
  exact (globMatch_lit_iff _ (by decide) _ _).mpr
    ⟨['1'], rfl, globMatch_star _⟩

theorem c8_glob_match2 :
    globMatch ['a', 'p', 'p', ':', 'l', 'i', 's', 't', ':', '*']
      ['a', 'p', 'p', ':', 'l', 'i', 's', 't', ':', '2'] = true := by
  have h1 : (['a', 'p', 'p', ':', 'l', 'i', 's', 't', ':', '*'] :
      List Char) = ("app:list:" : String).data ++ ['*'] := by decide
  have h2 : (['a', 'p', 'p', ':', 'l', 'i', 's', 't', ':', '2'] :
      List Char) = ("app:list:" : String).data ++ ['2'] := by decide
  rw [h1, h2]
  exact (globMatch_lit_iff _ (by decide) _ _).mpr
    ⟨['2'], rfl, globMatch_star _⟩

theorem c8_glob_nomatch :
    globMatch ['a', 'p', 'p', ':', 'l', 'i', 's', 't', ':', '*']
      ['a', 'p', 'p', ':', 's', 'e', 'a', 'r', 'c', 'h', ':', 'x'] =
      false := by
  have h1 : (['a', 'p', 'p', ':', 'l', 'i', 's', 't', ':', '*'] :
      List Char) = ("app:list:" : String).data ++ ['*'] := by decide
  rw [h1]
  cases hb : globMatch (("app:list:" : String).data ++ ['*'])
      ['a', 'p', 'p', ':', 's', 'e', 'a', 'r', 'c', 'h', ':', 'x'] with
  | false => rfl
  | true =>
      obtain ⟨r, hr, _⟩ := (globMatch_lit_iff _ (by decide) _ _).mp hb
      have hp : hasPre ("app:list:" : String).data
          ['a', 'p', 'p', ':', 's', 'e', 'a', 'r', 'c', 'h', ':', 'x'] =
          true := by
        rw [hr]
        exact hasPre_append _ _
      exact absurd hp (by decide)

theorem c8_scan :
    scanKeys c8Store
      (CacheService.generateKey ⟨"app", 3600⟩ "list:*" none) =
      ["app:list:1", "app:list:2"] := by
  rw [show CacheService.generateKey ⟨"app", 3600⟩ "list:*" none =
    "app:list:*" from by decide]
  show List.filter (fun k => globMatch ("app:list:*" : String).data k.data)
    ["app:list:1", "app:list:2", "app:search:x"] =
    ["app:list:1", "app:list:2"]
  simp only [List.filter_cons, List.filter_nil, c8_glob_match1,
    c8_glob_match2, c8_glob_nomatch, reduceIte]
  simp

/-- C8: with the store up, `delPattern` deletes exactly the scanned keys
(those in the store matching the namespaced glob pattern) and returns
their number; the batch split at 100 does not change the outcome; with a
glob-free namespace every scanned key lies under the namespace.  On the
spec's example store, `delPattern "list:*"` returns 2, removes the two
`list:` keys and leaves `search:x` intact. -/
theorem C8_delPattern_semantics :
    (∀ (c : CacheService) (st : RState) (pat : String), st.down = false →
      (c.delPattern st pat).1 =
        (scanKeys st (c.generateKey pat none)).length ∧
      (∀ q, alookup ((c.delPattern st pat).2).entries q =
        if q ∈ scanKeys st (c.generateKey pat none) then none
        else alookup st.entries q) ∧
      (∀ q, q ∈ scanKeys st (c.generateKey pat none) ↔
        q ∈ st.entries.map (fun e => e.1) ∧
        globMatch (c.generateKey pat none).data q.data = true) ∧
      (litList (c.ns ++ ":").data = true →
        ∀ q ∈ scanKeys st (c.generateKey pat none),
          hasPre (c.ns ++ ":").data q.data = true)) ∧
    (CacheService.delPattern ⟨"app", 3600⟩ c8Store "list:*").1 = 2 ∧
    alookup ((CacheService.delPattern ⟨"app", 3600⟩ c8Store
      "list:*").2).entries "app:list:1" = none ∧
    alookup ((CacheService.delPattern ⟨"app", 3600⟩ c8Store
      "list:*").2).entries "app:list:2" = none ∧
    alookup ((CacheService.delPattern ⟨"app", 3600⟩ c8Store
      "list:*").2).entries "app:search:x" = some (.str "3", some 60) := by
  have hgen : ∀ (c : CacheService) (st : RState) (pat : String),
      st.down = false →
      (c.delPattern st pat).1 =
        (scanKeys st (c.generateKey pat none)).length ∧
      (∀ q, alookup ((c.delPattern st pat).2).entries q =
        if q ∈ scanKeys st (c.generateKey pat none) then none
        else alookup st.entries q) ∧
      (∀ q, q ∈ scanKeys st (c.generateKey pat none) ↔
        q ∈ st.entries.map (fun e => e.1) ∧
        globMatch (c.generateKey pat none).data q.data = true) ∧
      (litList (c.ns ++ ":").data = true →
        ∀ q ∈ scanKeys st (c.generateKey pat none),
          hasPre (c.ns ++ ":").data q.data = true) :=
    fun c st pat hd =>
      ⟨delPattern_count c st pat hd, delPattern_lookup c st pat hd,
       fun q => scanKeys_mem st _ q,
       fun hl q hq => scanKeys_under_ns c st pat q hl hq⟩
  obtain ⟨hc1, hc2, _, _⟩ := hgen ⟨"app", 3600⟩ c8Store "list:*" rfl
  refine ⟨hgen, ?_, ?_, ?_, ?_⟩
  · rw [hc1, c8_scan]
    rfl
  · rw [hc2 "app:list:1", c8_scan]
    simp
  · rw [hc2 "app:list:2", c8_scan]
    simp
  · rw [hc2 "app:search:x", c8_scan]
    rw [if_neg (by decide)]
    simp [c8Store, alookup]

theorem C8_delPattern_semantics_witness :
    c8Store.down = false ∧
    (CacheService.delPattern ⟨"app", 3600⟩ c8Store "list:*").1 =
      (scanKeys c8Store
        (CacheService.generateKey ⟨"app", 3600⟩ "list:*" none)).length :=
  ⟨rfl, (C8_delPattern_semantics.1 ⟨"app", 3600⟩ c8Store "list:*" rfl).1⟩

end Osmium
